import Mathlib

/-!
Verification of the credential-pool / quota-ledger / chunk-dispatch core of
`AIVerse-TTS-GUI.py` against its specification.

The Python source is shallowly embedded:
* text is a `List Char`; `str.split()` (split on whitespace, dropping empty
  pieces) is `pySplit`, `" ".join` is `joinSp`;
* the in-memory dictionaries `key_usage`, `char_usage`, `first_used` are
  association lists with Python-dict update semantics (`setKey` updates the
  existing entry in place, otherwise appends), `invalid_keys` is a list with
  set semantics (`addSet` / removal by filtering), timestamps are `Int`;
* the global mutable state (`API_KEYS`, the four maps, `current_key_index`)
  is the structure `LedgerState`, threaded explicitly;
* the network call of `send_to_elevenlabs_api` is an oracle
  `Nat → String → SendOutcome` giving the outcome for each chunk index; the
  observable per-chunk effects (progress callbacks, `time.sleep(3)`, the
  dispatch attempts) are collected in an event trace `List Ev`;
* disk persistence (`_save_state_locked`, `atomic_write_json`) has no
  in-memory effect and is omitted; `load_keys`/`load_state` restore exactly
  what was saved, so a job's fresh snapshot is modelled by the initial
  `LedgerState` handed to `process_text`.
-/

/-! ### TextChunker: `chunk_text` (source lines 387-399) and `str.split` -/

/-- Model of Python `str.split()` (no separator): split on whitespace,
no empty words.  `acc` is the word currently being accumulated. -/
def splitAux : List Char → List Char → List (List Char)
  | [], acc => if acc.isEmpty then [] else [acc]
  | c :: cs, acc =>
    if c.isWhitespace then
      if acc.isEmpty then splitAux cs [] else acc :: splitAux cs []
    else splitAux cs (acc ++ [c])

/-- `text.split()` from the source: whitespace-separated words of a text. -/
def pySplit (s : List Char) : List (List Char) := splitAux s []

/-- `" ".join(ws)`: interleave a single space between the pieces. -/
def joinSp : List (List Char) → List Char
  | [] => []
  | [w] => w
  | w :: ws => w ++ ' ' :: joinSp ws

/-- The loop of `chunk_text`, kept at the level of word lists: `curr` is the
current chunk's words, `len` the running `length` variable of the source.
The source appends `" ".join(curr)` when a chunk is closed; here chunks stay
word lists and the join is applied afterwards (`chunk_text`). -/
def chunkAux (L : Nat) : List (List Char) → List (List Char) → Nat → List (List (List Char))
  | [], curr, _ => if curr.isEmpty then [] else [curr]
  | w :: ws, curr, len =>
    if len + w.length + 1 ≤ L then chunkAux L ws (curr ++ [w]) (len + w.length + 1)
    else curr :: chunkAux L ws [w] w.length

/-- `chunk_text(text, chunk_size)` from the source (default `chunk_size` is
2500): split into word-safe chunks. -/
def chunk_text (text : List Char) (L : Nat) : List (List Char) :=
  (chunkAux L (pySplit text) [] 0).map joinSp

/-! #### Lemmas about whitespace splitting -/

theorem splitAux_append_space (t : List Char) :
    ∀ (s acc : List Char), splitAux (s ++ ' ' :: t) acc = splitAux s acc ++ splitAux t [] := by
  intro s
  induction s with
  | nil =>
    intro acc
    simp only [List.nil_append, splitAux]
    have hws : (' ' : Char).isWhitespace = true := by decide
    rw [hws]
    by_cases h : acc.isEmpty <;> simp [h]
  | cons c cs ih =>
    intro acc
    show splitAux (c :: (cs ++ ' ' :: t)) acc = splitAux (c :: cs) acc ++ splitAux t []
    simp only [splitAux]
    by_cases hws : c.isWhitespace
    · rw [if_pos hws, if_pos hws]
      by_cases h : acc.isEmpty <;> simp [h, ih]
    · rw [if_neg hws, if_neg hws]
      exact ih (acc ++ [c])

theorem splitAux_no_ws (w : List Char) (hw : ∀ c ∈ w, ¬ c.isWhitespace) :
    ∀ acc, splitAux w acc = if (acc ++ w).isEmpty then [] else [acc ++ w] := by
  induction w with
  | nil => intro acc; simp [splitAux]
  | cons c cs ih =>
    intro acc
    have hc : ¬ c.isWhitespace = true := hw c (by simp)
    simp only [splitAux, if_neg hc]
    rw [ih (fun d hd => hw d (by simp [hd]))]
    simp

theorem splitAux_words_good :
    ∀ (s acc : List Char), (∀ c ∈ acc, ¬ c.isWhitespace) →
      ∀ w ∈ splitAux s acc, w ≠ [] ∧ ∀ c ∈ w, ¬ c.isWhitespace := by
  intro s
  induction s with
  | nil =>
    intro acc hacc w hw
    simp only [splitAux] at hw
    by_cases h : acc.isEmpty
    · simp [h] at hw
    · rw [if_neg h] at hw
      simp only [List.mem_singleton] at hw
      subst hw
      exact ⟨fun he => h (by simp [he]), hacc⟩
  | cons c cs ih =>
    intro acc hacc w hw
    simp only [splitAux] at hw
    by_cases hws : c.isWhitespace
    · rw [if_pos hws] at hw
      by_cases h : acc.isEmpty
      · rw [if_pos h] at hw
        exact ih [] (by simp) w hw
      · rw [if_neg h] at hw
        rcases List.mem_cons.mp hw with h1 | h1
        · subst h1
          exact ⟨fun he => h (by simp [he]), hacc⟩
        · exact ih [] (by simp) w h1
    · rw [if_neg hws] at hw
      refine ih (acc ++ [c]) ?_ w hw
      intro d hd
      rcases List.mem_append.mp hd with h1 | h1
      · exact hacc d h1
      · simp only [List.mem_singleton] at h1
        subst h1
        exact hws

theorem pySplit_words_good (s : List Char) :
    ∀ w ∈ pySplit s, w ≠ [] ∧ ∀ c ∈ w, ¬ c.isWhitespace :=
  splitAux_words_good s [] (by simp)

theorem pySplit_all_ws (s : List Char) (h : ∀ c ∈ s, c.isWhitespace) :
    pySplit s = [] := by
  induction s with
  | nil => rfl
  | cons c cs ih =>
    have hc : c.isWhitespace = true := h c (by simp)
    simp only [pySplit, splitAux, hc, if_pos, List.isEmpty_nil, if_true]
    exact ih (fun d hd => h d (by simp [hd]))

theorem pySplit_joinSp (chunks : List (List Char)) :
    pySplit (joinSp chunks) = (chunks.map pySplit).flatten := by
  induction chunks with
  | nil => rfl
  | cons c rest ih =>
    cases rest with
    | nil => simp [joinSp]
    | cons c2 rest2 =>
      show splitAux (c ++ ' ' :: joinSp (c2 :: rest2)) [] = ((c :: c2 :: rest2).map pySplit).flatten
      rw [splitAux_append_space]
      show pySplit c ++ pySplit (joinSp (c2 :: rest2)) = _
      rw [ih]
      simp

theorem pySplit_word_list (ws : List (List Char))
    (h : ∀ w ∈ ws, w ≠ [] ∧ ∀ c ∈ w, ¬ c.isWhitespace) :
    pySplit (joinSp ws) = ws := by
  induction ws with
  | nil => rfl
  | cons w rest ih =>
    obtain ⟨hne, hnws⟩ := h w (by simp)
    cases rest with
    | nil =>
      show pySplit w = [w]
      unfold pySplit
      rw [splitAux_no_ws w hnws]
      simp [hne]
    | cons w2 rest2 =>
      show pySplit (w ++ ' ' :: joinSp (w2 :: rest2)) = _
      unfold pySplit
      rw [splitAux_append_space]
      show splitAux w [] ++ pySplit (joinSp (w2 :: rest2)) = _
      rw [splitAux_no_ws w hnws, ih (fun u hu => h u (by simp [hu]))]
      simp [hne]

/-! #### Lemmas about the chunking loop -/

theorem chunkAux_flatten (L : Nat) :
    ∀ (ws curr : List (List Char)) (len : Nat),
      (chunkAux L ws curr len).flatten = curr ++ ws := by
  intro ws
  induction ws with
  | nil =>
    intro curr len
    by_cases h : curr.isEmpty
    · have : curr = [] := by simpa using h
      simp [chunkAux, h, this]
    · simp [chunkAux, h]
  | cons w rest ih =>
    intro curr len
    simp only [chunkAux]
    by_cases h : len + w.length + 1 ≤ L
    · rw [if_pos h, ih]
      simp
    · rw [if_neg h]
      simp [ih]

theorem joinSp_append_one (w : List Char) :
    ∀ xs : List (List Char), joinSp (xs ++ [w]) =
      if xs.isEmpty then w else joinSp xs ++ ' ' :: w := by
  intro xs
  induction xs with
  | nil => rfl
  | cons x rest ih =>
    cases rest with
    | nil => rfl
    | cons x2 rest2 =>
      show joinSp (x :: (x2 :: rest2 ++ [w])) = _
      have h1 : joinSp (x :: (x2 :: rest2 ++ [w])) = x ++ ' ' :: joinSp (x2 :: rest2 ++ [w]) := by
        cases rest2 <;> rfl
      rw [h1, ih]
      simp [joinSp]

theorem chunkAux_length_bound (L : Nat) :
    ∀ (ws curr : List (List Char)) (len : Nat),
      (joinSp curr).length ≤ len →
      (len ≤ L ∨ ∃ w, curr = [w]) →
      ∀ chunk ∈ chunkAux L ws curr len,
        (joinSp chunk).length ≤ L ∨ ∃ w, chunk = [w] ∧ L < w.length := by
  intro ws
  induction ws with
  | nil =>
    intro curr len hlen hcase chunk hchunk
    simp only [chunkAux] at hchunk
    by_cases h : curr.isEmpty
    · simp [h] at hchunk
    · rw [if_neg h] at hchunk
      simp only [List.mem_singleton] at hchunk
      subst hchunk
      rcases hcase with h1 | ⟨w, rfl⟩
      · exact Or.inl (le_trans hlen h1)
      · by_cases h2 : w.length ≤ L
        · exact Or.inl (by simpa [joinSp] using h2)
        · exact Or.inr ⟨w, rfl, by omega⟩
  | cons w rest ih =>
    intro curr len hlen hcase chunk hchunk
    simp only [chunkAux] at hchunk
    by_cases h : len + w.length + 1 ≤ L
    · rw [if_pos h] at hchunk
      refine ih (curr ++ [w]) (len + w.length + 1) ?_ (Or.inl h) chunk hchunk
      rw [joinSp_append_one]
      by_cases hc : curr.isEmpty
      · rw [if_pos hc]; omega
      · rw [if_neg hc]
        simp only [List.length_append, List.length_cons]
        omega
    · rw [if_neg h] at hchunk
      rcases List.mem_cons.mp hchunk with h1 | h1
      · subst h1
        rcases hcase with h2 | ⟨v, rfl⟩
        · exact Or.inl (le_trans hlen h2)
        · by_cases h3 : v.length ≤ L
          · exact Or.inl (by simpa [joinSp] using h3)
          · exact Or.inr ⟨v, rfl, by omega⟩
      · exact ih [w] w.length (by simp [joinSp]) (Or.inr ⟨w, rfl⟩) chunk h1

/-- Claim C1: for every input text and limit, joining the chunks of
`chunk_text` with single spaces reconstructs the whitespace-separated word
sequence exactly; every chunk is at most `L` characters long except a chunk
that is one single word longer than `L`; whitespace-only input gives no
chunks. -/
theorem chunk_text_spec (T : List Char) (L : Nat) :
    pySplit (joinSp (chunk_text T L)) = pySplit T ∧
    (∀ chunk ∈ chunk_text T L,
      chunk.length ≤ L ∨ (pySplit chunk = [chunk] ∧ L < chunk.length)) ∧
    ((∀ c ∈ T, c.isWhitespace) → chunk_text T L = []) := by
  have hgood : ∀ ch ∈ chunkAux L (pySplit T) [] 0,
      ∀ w ∈ ch, w ≠ [] ∧ ∀ c ∈ w, ¬ c.isWhitespace := by
    intro ch hch w hw
    have hmem : w ∈ (chunkAux L (pySplit T) [] 0).flatten :=
      List.mem_flatten.mpr ⟨ch, hch, hw⟩
    rw [chunkAux_flatten] at hmem
    exact pySplit_words_good T w (by simpa using hmem)
  refine ⟨?_, ?_, ?_⟩
  · show pySplit (joinSp ((chunkAux L (pySplit T) [] 0).map joinSp)) = pySplit T
    rw [pySplit_joinSp, List.map_map]
    have hid : (chunkAux L (pySplit T) [] 0).map (pySplit ∘ joinSp) =
        (chunkAux L (pySplit T) [] 0).map id := by
      refine List.map_congr_left ?_
      intro ch hch
      exact pySplit_word_list ch (hgood ch hch)
    rw [hid, List.map_id, chunkAux_flatten]
    simp
  · intro chunk hchunk
    rcases List.mem_map.mp hchunk with ⟨ch, hch, rfl⟩
    have hb := chunkAux_length_bound L (pySplit T) [] 0 (by simp [joinSp])
      (Or.inl (Nat.zero_le L)) ch hch
    rcases hb with h1 | ⟨w, rfl, hlt⟩
    · exact Or.inl h1
    · right
      obtain ⟨hne, hnws⟩ := hgood [w] hch w (by simp)
      constructor
      · show pySplit w = [w]
        unfold pySplit
        rw [splitAux_no_ws w hnws]
        simp [hne]
      · simpa [joinSp] using hlt
  · intro hws
    show (chunkAux L (pySplit T) [] 0).map joinSp = []
    rw [pySplit_all_ws T hws]
    rfl

/-- Witness for C1 at a concrete input: the single-space text. -/
theorem chunk_text_spec_witness :
    pySplit (joinSp (chunk_text [' '] 2)) = pySplit [' '] ∧
    (∀ chunk ∈ chunk_text [' '] 2,
      chunk.length ≤ 2 ∨ (pySplit chunk = [chunk] ∧ 2 < chunk.length)) ∧
    chunk_text [' '] 2 = [] :=
  ⟨(chunk_text_spec [' '] 2).1, (chunk_text_spec [' '] 2).2.1,
    (chunk_text_spec [' '] 2).2.2 (by decide)⟩

/-! ### The quota ledger state

Python dictionaries are association lists (`setKey` mirrors dict assignment:
update in place if the key exists, else append), `invalid_keys` is a
duplicate-free list with set semantics, `datetime` values are `Int`
timestamps. -/

/-- Lookup in an association list (first matching entry). -/
def lookupKey {α : Type} : List (String × α) → String → Option α
  | [], _ => none
  | (j, v) :: rest, k => if j = k then some v else lookupKey rest k

/-- Python `d.get(k, d0)` for a counter dictionary. -/
def lookupD (m : List (String × Nat)) (k : String) (d : Nat) : Nat :=
  (lookupKey m k).getD d

/-- Python `d[k] = v`: replace the existing entry, else append. -/
def setKey {α : Type} : List (String × α) → String → α → List (String × α)
  | [], k, v => [(k, v)]
  | (j, w) :: rest, k, v =>
    if j = k then (k, v) :: rest else (j, w) :: setKey rest k v

/-- Python `d.pop(k, None)`: drop the entry for `k`. -/
def removeKey {α : Type} : List (String × α) → String → List (String × α)
  | [], _ => []
  | (j, w) :: rest, k =>
    if j = k then removeKey rest k else (j, w) :: removeKey rest k

/-- Python `d.setdefault(k, v)`. -/
def setDefault {α : Type} (m : List (String × α)) (k : String) (v : α) : List (String × α) :=
  match lookupKey m k with
  | some _ => m
  | none => m ++ [(k, v)]

/-- Python `s.add(k)` on the `invalid_keys` set. -/
def addSet (l : List String) (k : String) : List String :=
  if k ∈ l then l else l ++ [k]

/-- Python `s.discard(k)` on the `invalid_keys` set. -/
def delSet (l : List String) (k : String) : List String :=
  l.filter (fun j => decide (j ≠ k))

/-- The process-wide mutable state of the source: `API_KEYS`, `key_usage`,
`char_usage`, `first_used`, `invalid_keys`, `current_key_index`. -/
structure LedgerState where
  apiKeys : List String
  keyUsage : List (String × Nat)
  charUsage : List (String × Nat)
  firstUsed : List (String × Int)
  invalidKeys : List String
  currentKeyIndex : Nat
deriving DecidableEq

/-- The per-credential ledger record: chunks used, chars used, first-use
timestamp, invalid flag. -/
def recordOf (s : LedgerState) (k : String) : Nat × Nat × Option Int × Bool :=
  (lookupD s.keyUsage k 0, lookupD s.charUsage k 0, lookupKey s.firstUsed k,
    decide (k ∈ s.invalidKeys))

/-- Python dicts have no duplicate keys; states built by the program satisfy
this. -/
def WFState (s : LedgerState) : Prop :=
  (s.keyUsage.map Prod.fst).Nodup ∧ (s.charUsage.map Prod.fst).Nodup ∧
    (s.firstUsed.map Prod.fst).Nodup

instance (s : LedgerState) : Decidable (WFState s) := by
  unfold WFState
  infer_instance

/-! ### KeyRotator: `get_next_valid_api_key` (source lines 363-384) -/

/-- Result of `get_next_valid_api_key`: a key (with the updated state), the
`RuntimeError` for an exhausted pool, or an out-of-range list index (an
uncaught `IndexError` in Python; unreachable from program states). -/
inductive KeyResult where
  | found (key : String) (s : LedgerState)
  | exhausted (s : LedgerState)
  | indexErr (s : LedgerState)
deriving DecidableEq

/-- The `for _ in range(n)` loop of `get_next_valid_api_key`: read the key at
the cursor, advance the cursor mod `n`, skip invalid keys, return the first
key under `CHAR_LIMIT`, and mark keys at/over the limit invalid. -/
def nextKeyAux (limit : Nat) : Nat → LedgerState → KeyResult
  | 0, s => .exhausted s
  | fuel + 1, s =>
    match s.apiKeys.get? s.currentKeyIndex with
    | none => .indexErr s
    | some key =>
      let s1 := { s with currentKeyIndex := (s.currentKeyIndex + 1) % s.apiKeys.length }
      if key ∈ s1.invalidKeys then nextKeyAux limit fuel s1
      else if lookupD s1.charUsage key 0 < limit then .found key s1
      else nextKeyAux limit fuel { s1 with invalidKeys := addSet s1.invalidKeys key }

/-- `get_next_valid_api_key()`: cycle once through `API_KEYS`. -/
def get_next_valid_api_key (limit : Nat) (s : LedgerState) : KeyResult :=
  nextKeyAux limit s.apiKeys.length s

/-- Eligibility as the spec states it: not flagged invalid and strictly under
the character limit. -/
def eligibleKey (limit : Nat) (s : LedgerState) (k : String) : Prop :=
  k ∉ s.invalidKeys ∧ lookupD s.charUsage k 0 < limit

instance (limit : Nat) (s : LedgerState) (k : String) : Decidable (eligibleKey limit s k) := by
  unfold eligibleKey
  infer_instance

/-! ### QuotaLedger operations -/

/-- The usage-recording block of `process_text` (source lines 475-486): set
`first_used` on first use, bump both counters, invalidate at/over the
limit. -/
def recordUsage (limit : Nat) (key : String) (nChars : Nat) (now : Int)
    (s : LedgerState) : LedgerState :=
  let s1 :=
    if (lookupKey s.firstUsed key).isNone
    then { s with firstUsed := s.firstUsed ++ [(key, now)] } else s
  let s2 := { s1 with keyUsage := setKey s1.keyUsage key (lookupD s1.keyUsage key 0 + 1) }
  let s3 := { s2 with charUsage := setKey s2.charUsage key (lookupD s2.charUsage key 0 + nChars) }
  if limit ≤ lookupD s3.charUsage key 0
  then { s3 with invalidKeys := addSet s3.invalidKeys key } else s3

/-- The 401/403 branch of `send_to_elevenlabs_api` (source lines 431-435):
mark the key invalid and set both counters to the sentinel 4.  `first_used`
is not touched. -/
def poisonKey (key : String) (s : LedgerState) : LedgerState :=
  { s with invalidKeys := addSet s.invalidKeys key,
           keyUsage := setKey s.keyUsage key 4,
           charUsage := setKey s.charUsage key 4 }

/-- The expiry loop of `reset_expired_keys` over the snapshot
`list(first_used.items())`: zero both counters, drop the `first_used` entry
and discard from `invalid_keys` for every expired key. -/
def resetLoop (now window : Int) : List (String × Int) → LedgerState → LedgerState
  | [], s => s
  | (k, dt) :: rest, s =>
    if window ≤ now - dt then
      resetLoop now window rest
        { s with keyUsage := setKey s.keyUsage k 0,
                 charUsage := setKey s.charUsage k 0,
                 firstUsed := removeKey s.firstUsed k,
                 invalidKeys := delSet s.invalidKeys k }
    else resetLoop now window rest s

/-- The repair pass of `reset_expired_keys` over `list(char_usage.items())`:
mark every key at/over the limit invalid. -/
def repairLoop (limit : Nat) : List (String × Nat) → List String → List String
  | [], inv => inv
  | (k, used) :: rest, inv =>
    repairLoop limit rest (if limit ≤ used then addSet inv k else inv)

/-- `reset_expired_keys()` (source lines 309-349), with `now` the current
time and `window` the `UPDATE_INTERVAL_DAYS` cutoff in the same units. -/
def reset_expired_keys (limit : Nat) (now window : Int) (s : LedgerState) : LedgerState :=
  let s1 := resetLoop now window s.firstUsed s
  { s1 with invalidKeys := repairLoop limit s1.charUsage s1.invalidKeys }

/-- The re-keying block of `save_and_close` (source lines 1085-1100): install
the new list, rebuild the usage dicts keeping the records of retained keys,
intersect `invalid_keys` with the new list, reset the cursor. -/
def rekeyLedger (newKeys : List String) (s : LedgerState) : LedgerState :=
  { apiKeys := newKeys,
    keyUsage := newKeys.foldl (fun m k => setKey m k (lookupD s.keyUsage k 0)) [],
    charUsage := newKeys.foldl (fun m k => setKey m k (lookupD s.charUsage k 0)) [],
    firstUsed := newKeys.foldl
      (fun m k => match lookupKey s.firstUsed k with
        | some dt => setKey m k dt
        | none => m) [],
    invalidKeys := s.invalidKeys.filter (fun j => decide (j ∈ newKeys)),
    currentKeyIndex := 0 }

/-- Python `str.strip()`: drop leading and trailing whitespace. -/
def pyStrip (s : String) : String :=
  ⟨((s.data.dropWhile Char.isWhitespace).reverse.dropWhile Char.isWhitespace).reverse⟩

/-- The key-list parse of `save_and_close` (source line 1080): strip each
entered line, drop the blank ones. -/
def parseKeyLines (lines : List String) : List String :=
  (lines.map pyStrip).filter (fun k => decide (k ≠ ""))

/-- `save_and_close` (source lines 1079-1110): an empty parsed list is
rejected with a warning before any mutation, otherwise the ledger is
re-keyed. -/
def save_and_close (lines : List String) (s : LedgerState) : LedgerState :=
  let newKeys := parseKeyLines lines
  if newKeys = [] then s else rekeyLedger newKeys s

/-- The `setdefault` pass of `load_keys` (source lines 229-231) after
`API_KEYS` is read from the key file. -/
def initUsage (keys : List String) (s : LedgerState) : LedgerState :=
  { s with apiKeys := keys,
           keyUsage := keys.foldl (fun m k => setDefault m k 0) s.keyUsage,
           charUsage := keys.foldl (fun m k => setDefault m k 0) s.charUsage }

/-! ### DispatchEngine: `process_text` (source lines 439-494)

The network call is an oracle `Nat → String → SendOutcome` (outcome of the
dispatch of chunk `i` with a given key); `cancel i` is the value of
`cancel_check()` read at the top of iteration `i`.  The observable events of
a run (dispatch attempts, progress callbacks, `time.sleep(3)`) form a
trace. -/

/-- Outcome of one `send_to_elevenlabs_api` call: HTTP 200 with the file
written, HTTP 401/403 (key gets poisoned), or any other failure (network
error, other status, disk write error) — the last two return `False` with no
state change. -/
inductive SendOutcome where
  | success
  | authFail
  | otherFail
deriving DecidableEq

/-- In-memory effect and return value of `send_to_elevenlabs_api`. -/
def sendModel (oc : SendOutcome) (key : String) (s : LedgerState) : Bool × LedgerState :=
  match oc with
  | .success => (true, s)
  | .authFail => (false, poisonKey key s)
  | .otherFail => (false, s)

/-- Observable events of a `process_text` run. -/
inductive Ev where
  | progress (done total : Nat)
  | send (idx : Nat) (key : String) (ok : Bool)
  | sleep (secs : Nat)
deriving DecidableEq

/-- How a run ended: all chunks processed, cancelled, pool exhausted
(`RuntimeError` caught, loop broken), or an uncaught exception. -/
inductive StopReason where
  | completed
  | cancelled
  | exhausted
  | crashed
deriving DecidableEq

/-- The `for i, chunk in enumerate(chunks, start=1)` loop of `process_text`.
On success: record usage, report progress `(i, total)`, sleep 3 seconds.  On
failure: `continue` — no usage tracking, no progress report, no sleep. -/
def processLoop (limit : Nat) (oracle : Nat → String → SendOutcome)
    (cancel : Nat → Bool) (now : Int) (total : Nat) :
    List (List Char) → Nat → LedgerState → List Ev × LedgerState × StopReason
  | [], _, s => ([], s, .completed)
  | chunk :: rest, i, s =>
    if cancel i then ([], s, .cancelled)
    else
      match get_next_valid_api_key limit s with
      | .exhausted s1 => ([], s1, .exhausted)
      | .indexErr s1 => ([], s1, .crashed)
      | .found key s1 =>
        match sendModel (oracle i key) key s1 with
        | (true, s2) =>
          let s3 := recordUsage limit key chunk.length now s2
          let r := processLoop limit oracle cancel now total rest (i + 1) s3
          (Ev.send i key true :: Ev.progress i total :: Ev.sleep 3 :: r.1, r.2)
        | (false, s2) =>
          let r := processLoop limit oracle cancel now total rest (i + 1) s2
          (Ev.send i key false :: r.1, r.2)

/-- `process_text`: chunk the text with the default `chunk_size` 2500, report
initial progress `(0, total)`, then run the dispatch loop from index 1.  The
`load_keys()`/`load_state()` snapshot is the initial state `s`. -/
def process_text (limit : Nat) (oracle : Nat → String → SendOutcome)
    (cancel : Nat → Bool) (now : Int) (text : List Char) (s : LedgerState) :
    List Ev × LedgerState × StopReason :=
  let chunks := chunk_text text 2500
  let r := processLoop limit oracle cancel now chunks.length chunks 1 s
  (Ev.progress 0 chunks.length :: r.1, r.2)

/-! #### Trace checkers -/

/-- C8 as claimed: every dispatch attempt is followed by a 3-second sleep
before the next attempt (`pending` records an attempt whose sleep is still
owed). -/
def attemptsDelayed : List Ev → Bool → Bool
  | [], _ => true
  | Ev.send _ _ _ :: rest, pending =>
    if pending then false else attemptsDelayed rest true
  | Ev.sleep 3 :: rest, _ => attemptsDelayed rest false
  | _ :: rest, pending => attemptsDelayed rest pending

/-- C8 as the code behaves: every successful attempt is immediately followed
by the progress report and the 3-second sleep; no sleep follows a failed
attempt. -/
def successSleepOk : List Ev → Bool
  | [] => true
  | Ev.send _ _ true :: rest =>
    match rest with
    | Ev.progress _ _ :: Ev.sleep 3 :: rest2 => successSleepOk rest2
    | _ => false
  | Ev.send _ _ false :: rest =>
    match rest with
    | Ev.sleep _ :: _ => false
    | _ => successSleepOk rest
  | _ :: rest => successSleepOk rest

/-- C9 as claimed: every progress report carries the number of successful
chunks so far as its first component (`cnt` counts successes seen). -/
def progressCountsSuccesses : List Ev → Nat → Bool
  | [], _ => true
  | Ev.send _ _ true :: rest, cnt => progressCountsSuccesses rest (cnt + 1)
  | Ev.progress d _ :: rest, cnt => decide (d = cnt) && progressCountsSuccesses rest cnt
  | _ :: rest, cnt => progressCountsSuccesses rest cnt

/-- C9 as the code behaves: every progress report follows a successful
dispatch immediately and carries that chunk's 1-based index and the total
chunk count. -/
def progressIndexOk (total : Nat) : List Ev → Bool
  | [] => true
  | Ev.send i _ true :: rest =>
    match rest with
    | Ev.progress d t :: rest2 =>
      decide (d = i) && decide (t = total) && progressIndexOk total rest2
    | _ => false
  | Ev.progress _ _ :: _ => false
  | _ :: rest => progressIndexOk total rest

/-! ### The ledger operations as a transition system (for the reachable-state
claims C4 and C5) -/

/-- One ledger operation: a `recordUsage` performed by `process_text`, a
poisoning by the 401/403 branch, a `reset_expired_keys` run, a re-keying by
`save_and_close` (rejected when the new list is empty), or the `load_keys`
initialisation pass. -/
inductive LOp where
  | recordOp (limit : Nat) (key : String) (nChars : Nat) (now : Int)
  | poisonOp (key : String)
  | resetOp (limit : Nat) (now window : Int)
  | rekeyOp (newKeys : List String)
  | initOp (keys : List String)
deriving DecidableEq

/-- Apply one ledger operation. -/
def applyOp (op : LOp) (s : LedgerState) : LedgerState :=
  match op with
  | .recordOp limit key nChars now => recordUsage limit key nChars now s
  | .poisonOp key => poisonKey key s
  | .resetOp limit now window => reset_expired_keys limit now window s
  | .rekeyOp newKeys => if newKeys = [] then s else rekeyLedger newKeys s
  | .initOp keys => initUsage keys s

/-- Apply a sequence of ledger operations. -/
def applyOps (ops : List LOp) (s : LedgerState) : LedgerState :=
  ops.foldl (fun t op => applyOp op t) s

/-- A fresh ledger: nothing used, nothing invalid. -/
def EmptyLedger (s : LedgerState) : Prop :=
  s.keyUsage = [] ∧ s.charUsage = [] ∧ s.firstUsed = [] ∧ s.invalidKeys = []

instance (s : LedgerState) : Decidable (EmptyLedger s) := by
  unfold EmptyLedger
  infer_instance

/-- The data-model invariant claimed in the spec, amended for poisoning: a
credential with no `first_used` entry either has never been charged (both
counters 0) or was poisoned (both counters at the sentinel 4 and flagged
invalid). -/
def counterInv (s : LedgerState) : Prop :=
  ∀ k, lookupKey s.firstUsed k = none →
    (lookupD s.keyUsage k 0 = 0 ∧ lookupD s.charUsage k 0 = 0) ∨
    (lookupD s.keyUsage k 0 = 4 ∧ lookupD s.charUsage k 0 = 4 ∧ k ∈ s.invalidKeys)

/-! ### Association-list lemmas -/

theorem lookupKey_setKey_self {α : Type} (m : List (String × α)) (k : String) (v : α) :
    lookupKey (setKey m k v) k = some v := by
  induction m with
  | nil => simp [setKey, lookupKey]
  | cons p rest ih =>
    obtain ⟨j, w⟩ := p
    by_cases h : j = k
    · simp [setKey, h, lookupKey]
    · simp [setKey, h, lookupKey, ih]

theorem lookupKey_setKey_ne {α : Type} (m : List (String × α)) (j k : String) (v : α)
    (h : j ≠ k) : lookupKey (setKey m j v) k = lookupKey m k := by
  induction m with
  | nil => simp [setKey, lookupKey, h]
  | cons p rest ih =>
    obtain ⟨i, w⟩ := p
    by_cases h2 : i = j
    · subst h2
      simp [setKey, lookupKey, h, ih]
    · by_cases h3 : i = k <;> simp [setKey, lookupKey, h2, h3, ih, Ne.symm h]

theorem lookupKey_removeKey_self {α : Type} (m : List (String × α)) (k : String) :
    lookupKey (removeKey m k) k = none := by
  induction m with
  | nil => rfl
  | cons p rest ih =>
    obtain ⟨j, w⟩ := p
    by_cases h : j = k <;> simp [removeKey, lookupKey, h, ih]

theorem lookupKey_removeKey_ne {α : Type} (m : List (String × α)) (j k : String)
    (h : j ≠ k) : lookupKey (removeKey m j) k = lookupKey m k := by
  induction m with
  | nil => rfl
  | cons p rest ih =>
    obtain ⟨i, w⟩ := p
    by_cases h2 : i = j
    · subst h2
      simp [removeKey, lookupKey, h, ih]
    · by_cases h3 : i = k <;> simp [removeKey, lookupKey, h2, h3, ih, Ne.symm h]

theorem lookupKey_append_one {α : Type} (m : List (String × α)) (j k : String) (v : α) :
    lookupKey (m ++ [(j, v)]) k =
      match lookupKey m k with
      | some w => some w
      | none => if j = k then some v else none := by
  induction m with
  | nil => simp [lookupKey]
  | cons p rest ih =>
    obtain ⟨i, w⟩ := p
    by_cases h : i = k <;> simp [lookupKey, h, ih]

theorem lookupKey_setDefault {α : Type} (m : List (String × α)) (j k : String) (v : α) :
    lookupKey (setDefault m j v) k =
      match lookupKey m k with
      | some w => some w
      | none => if j = k ∧ (lookupKey m j).isNone then some v else none := by
  unfold setDefault
  rcases hj : lookupKey m j with _ | w
  · rw [lookupKey_append_one]
    rcases hk : lookupKey m k with _ | u
    · by_cases h : j = k <;> simp [h, hj]
    · simp
  · rcases hk : lookupKey m k with _ | u
    · have : ¬ (j = k ∧ (lookupKey m j).isNone) := by
        rintro ⟨rfl, h2⟩
        rw [hj] at h2
        simp at h2
      simp [hk, this]
    · simp [hk]

theorem mem_addSet (l : List String) (j k : String) :
    k ∈ addSet l j ↔ k ∈ l ∨ k = j := by
  unfold addSet
  by_cases h : j ∈ l
  · constructor
    · intro h2
      rcases Decidable.em (k = j) with h3 | h3
      · exact Or.inr h3
      · simp [h] at h2
        exact Or.inl h2
    · intro h2
      rcases h2 with h2 | rfl
      · simp [h, h2]
      · simp [h]
  · simp [h, List.mem_append]

theorem mem_delSet (l : List String) (j k : String) :
    k ∈ delSet l j ↔ k ∈ l ∧ k ≠ j := by
  unfold delSet
  simp [List.mem_filter]

theorem keys_setKey {α : Type} (m : List (String × α)) (k : String) (v : α) :
    (setKey m k v).map Prod.fst =
      if (lookupKey m k).isSome then m.map Prod.fst else m.map Prod.fst ++ [k] := by
  induction m with
  | nil => simp [setKey, lookupKey]
  | cons p rest ih =>
    obtain ⟨j, w⟩ := p
    by_cases h : j = k
    · subst h
      simp [setKey, lookupKey]
    · simp only [setKey, if_neg h, List.map_cons, lookupKey, ih]
      by_cases h2 : (lookupKey rest k).isSome <;> simp [h, h2]

theorem lookupKey_isSome_of_mem_keys {α : Type} (m : List (String × α)) (k : String)
    (h : k ∈ m.map Prod.fst) : (lookupKey m k).isSome := by
  induction m with
  | nil => simp at h
  | cons p rest ih =>
    obtain ⟨j, w⟩ := p
    by_cases h2 : j = k
    · simp [lookupKey, h2]
    · simp only [List.map_cons, List.mem_cons] at h
      rcases h with h | h
      · exact absurd h.symm h2
      · simp [lookupKey, h2, ih h]

theorem nodupKeys_setKey {α : Type} (m : List (String × α)) (k : String) (v : α)
    (h : (m.map Prod.fst).Nodup) : ((setKey m k v).map Prod.fst).Nodup := by
  rw [keys_setKey]
  by_cases h2 : (lookupKey m k).isSome
  · simpa [h2] using h
  · rw [if_neg h2]
    have hk : k ∉ m.map Prod.fst := fun hmem => h2 (lookupKey_isSome_of_mem_keys m k hmem)
    simp [List.nodup_append, h, hk]

theorem keys_removeKey_sub {α : Type} (m : List (String × α)) (k : String) :
    ∀ j ∈ (removeKey m k).map Prod.fst, j ∈ m.map Prod.fst := by
  induction m with
  | nil => simp [removeKey]
  | cons p rest ih =>
    obtain ⟨i, w⟩ := p
    intro j hj
    by_cases h : i = k
    · simp only [removeKey, if_pos h] at hj
      simp [ih j hj]
    · simp only [removeKey, if_neg h, List.map_cons, List.mem_cons] at hj
      rcases hj with hj | hj
      · simp [hj]
      · simp [ih j hj]

theorem nodupKeys_removeKey {α : Type} (m : List (String × α)) (k : String)
    (h : (m.map Prod.fst).Nodup) : ((removeKey m k).map Prod.fst).Nodup := by
  induction m with
  | nil => exact h
  | cons p rest ih =>
    obtain ⟨i, w⟩ := p
    simp only [List.map_cons, List.nodup_cons] at h
    by_cases h2 : i = k
    · simp only [removeKey, if_pos h2]
      exact ih h.2
    · simp only [removeKey, if_neg h2, List.map_cons, List.nodup_cons]
      exact ⟨fun hmem => h.1 (keys_removeKey_sub rest k i hmem), ih h.2⟩

theorem lookupKey_of_entry_mem {α : Type} (m : List (String × α)) (k : String) (u : α)
    (hmem : (k, u) ∈ m) (h : (m.map Prod.fst).Nodup) : lookupKey m k = some u := by
  induction m with
  | nil => simp at hmem
  | cons p rest ih =>
    obtain ⟨j, w⟩ := p
    simp only [List.map_cons, List.nodup_cons] at h
    rcases List.mem_cons.mp hmem with h2 | h2
    · rw [Prod.mk.injEq] at h2
      obtain ⟨rfl, rfl⟩ := h2
      simp [lookupKey]
    · by_cases h3 : j = k
      · exfalso
        subst h3
        exact h.1 (List.mem_map.mpr ⟨(j, u), h2, rfl⟩)
      · simp [lookupKey, h3, ih h2 h.2]

theorem entry_mem_of_lookupKey {α : Type} (m : List (String × α)) (k : String) (u : α)
    (h : lookupKey m k = some u) : (k, u) ∈ m := by
  induction m with
  | nil => simp [lookupKey] at h
  | cons p rest ih =>
    obtain ⟨j, w⟩ := p
    by_cases h2 : j = k
    · subst h2
      simp [lookupKey] at h
      subst h
      simp
    · simp only [lookupKey, if_neg h2] at h
      simp [ih h]

theorem mem_repairLoop (limit : Nat) :
    ∀ (items : List (String × Nat)) (inv : List String) (k : String),
      k ∈ repairLoop limit items inv ↔
        k ∈ inv ∨ ∃ u, (k, u) ∈ items ∧ limit ≤ u := by
  intro items
  induction items with
  | nil => simp [repairLoop]
  | cons p rest ih =>
    obtain ⟨j, u⟩ := p
    intro inv k
    simp only [repairLoop]
    by_cases h : limit ≤ u
    · rw [if_pos h, ih]
      rw [mem_addSet]
      constructor
      · rintro (⟨h2 | rfl⟩ | ⟨w, hw, hl⟩)
        · exact Or.inl h2
        · exact Or.inr ⟨u, by simp, h⟩
        · exact Or.inr ⟨w, by simp [hw], hl⟩
      · rintro (h2 | ⟨w, hw, hl⟩)
        · exact Or.inl (Or.inl h2)
        · rcases List.mem_cons.mp hw with h3 | h3
          · rw [Prod.mk.injEq] at h3
            obtain ⟨rfl, rfl⟩ := h3
            exact Or.inl (Or.inr rfl)
          · exact Or.inr ⟨w, h3, hl⟩
    · rw [if_neg h, ih]
      constructor
      · rintro (h2 | ⟨w, hw, hl⟩)
        · exact Or.inl h2
        · exact Or.inr ⟨w, by simp [hw], hl⟩
      · rintro (h2 | ⟨w, hw, hl⟩)
        · exact Or.inl h2
        · rcases List.mem_cons.mp hw with h3 | h3
          · rw [Prod.mk.injEq] at h3
            obtain ⟨rfl, rfl⟩ := h3
            exact absurd hl h
          · exact Or.inr ⟨w, h3, hl⟩

/-! ### C2: the rotator never returns an ineligible key -/

theorem nextKeyAux_found_spec (limit : Nat) :
    ∀ (fuel : Nat) (s : LedgerState) (key : String) (s' : LedgerState),
      nextKeyAux limit fuel s = .found key s' →
      key ∉ s.invalidKeys ∧ lookupD s.charUsage key 0 < limit := by
  intro fuel
  induction fuel with
  | zero =>
    intro s key s' h
    simp [nextKeyAux] at h
  | succ fuel ih =>
    intro s key s' h
    simp only [nextKeyAux] at h
    rcases hget : s.apiKeys.get? s.currentKeyIndex with _ | k0
    · rw [hget] at h
      simp at h
    · rw [hget] at h
      simp only at h
      by_cases hinv : k0 ∈ s.invalidKeys
      · rw [if_pos hinv] at h
        exact ih { s with currentKeyIndex := (s.currentKeyIndex + 1) % s.apiKeys.length } key s' h
      · rw [if_neg hinv] at h
        by_cases hlt : lookupD s.charUsage k0 0 < limit
        · rw [if_pos hlt] at h
          obtain ⟨rfl, rfl⟩ := KeyResult.found.inj h
          exact ⟨hinv, hlt⟩
        · rw [if_neg hlt] at h
          have h2 := ih { s with currentKeyIndex := (s.currentKeyIndex + 1) % s.apiKeys.length, invalidKeys := addSet s.invalidKeys k0 } key s' h
          refine ⟨fun hmem => h2.1 ?_, h2.2⟩
          simpa [mem_addSet] using Or.inl hmem

/-- Claim C2: `get_next_valid_api_key` never returns a credential that is in
`invalid_keys` or whose `char_usage` is at/over `CHAR_LIMIT` at the time of
the call. -/
theorem get_next_valid_api_key_excludes (limit : Nat) (s : LedgerState) (key : String)
    (s' : LedgerState) (h : get_next_valid_api_key limit s = .found key s') :
    key ∉ s.invalidKeys ∧ lookupD s.charUsage key 0 < limit :=
  nextKeyAux_found_spec limit s.apiKeys.length s key s' h

/-- A two-key state for the C2 witness: "A" is invalid, "B" has 3 chars
used. -/
def c2State : LedgerState :=
  ⟨["A", "B"], [], [("B", 3)], [], ["A"], 0⟩

/-- Witness for C2: at `c2State` the rotator returns "B", which is neither
invalid nor at the limit. -/
theorem get_next_valid_api_key_excludes_witness :
    "B" ∉ c2State.invalidKeys ∧ lookupD c2State.charUsage "B" 0 < 10 :=
  get_next_valid_api_key_excludes 10 c2State "B" c2State (by decide)

/-! ### C6: exhausted pool iff a full cycle finds nothing eligible -/

/-- Did the rotator raise the `RuntimeError`? -/
def isExhaustedRes : KeyResult → Bool
  | .exhausted _ => true
  | _ => false

/-- Cursor invariant of the program: the cursor stays inside the key list
(it starts at 0, advances mod `n`, and is reset on re-keying). -/
def cursorOK (s : LedgerState) : Prop :=
  s.currentKeyIndex < s.apiKeys.length ∨ s.apiKeys = []

theorem eligibleKey_addSet (limit : Nat) (s : LedgerState) (x : Nat) (k0 k : String)
    (h : ¬ lookupD s.charUsage k0 0 < limit) :
    eligibleKey limit { s with currentKeyIndex := x, invalidKeys := addSet s.invalidKeys k0 } k ↔
      eligibleKey limit s k := by
  unfold eligibleKey
  constructor
  · rintro ⟨hni, hlt⟩
    exact ⟨fun hm => hni ((mem_addSet s.invalidKeys k0 k).mpr (Or.inl hm)), hlt⟩
  · rintro ⟨hni, hlt⟩
    refine ⟨fun hm => ?_, hlt⟩
    rcases (mem_addSet s.invalidKeys k0 k).mp hm with hm | rfl
    · exact hni hm
    · exact h hlt

theorem nextKeyAux_exhausted_of_none (limit : Nat) :
    ∀ (fuel : Nat) (s : LedgerState), s.apiKeys ≠ [] →
      s.currentKeyIndex < s.apiKeys.length →
      (∀ k ∈ s.apiKeys, ¬ eligibleKey limit s k) →
      isExhaustedRes (nextKeyAux limit fuel s) = true := by
  intro fuel
  induction fuel with
  | zero => intro s _ _ _; rfl
  | succ fuel ih =>
    intro s hne hcur hnone
    have hn : 0 < s.apiKeys.length := List.length_pos.mpr hne
    obtain ⟨k0, hget⟩ : ∃ k0, s.apiKeys.get? s.currentKeyIndex = some k0 := by
      rcases List.get?_eq_some.mpr ⟨hcur, rfl⟩ with h
      exact ⟨_, h⟩
    have hk0 : k0 ∈ s.apiKeys := by
      have := List.get?_eq_some.mp hget
      rcases this with ⟨h1, h2⟩
      exact h2 ▸ List.get_mem _ _ _
    have hinelig := hnone k0 hk0
    simp only [nextKeyAux, hget]
    by_cases hinv : k0 ∈ s.invalidKeys
    · rw [if_pos hinv]
      refine ih { s with currentKeyIndex := (s.currentKeyIndex + 1) % s.apiKeys.length } hne
        (Nat.mod_lt _ hn) ?_
      exact hnone
    · rw [if_neg hinv]
      have hge : ¬ lookupD s.charUsage k0 0 < limit := by
        intro hlt
        exact hinelig ⟨hinv, hlt⟩
      rw [if_neg hge]
      refine ih { s with currentKeyIndex := (s.currentKeyIndex + 1) % s.apiKeys.length, invalidKeys := addSet s.invalidKeys k0 } hne (Nat.mod_lt _ hn) ?_
      intro k hk
      rw [eligibleKey_addSet limit s _ k0 k hge]
      exact hnone k hk

theorem nextKeyAux_found_of_elig (limit : Nat) :
    ∀ (fuel : Nat) (s : LedgerState),
      s.currentKeyIndex < s.apiKeys.length →
      (∃ j, j < fuel ∧ ∃ k, s.apiKeys.get? ((s.currentKeyIndex + j) % s.apiKeys.length) = some k ∧
        eligibleKey limit s k) →
      ∃ key s', nextKeyAux limit fuel s = .found key s' := by
  intro fuel
  induction fuel with
  | zero =>
    rintro s _ ⟨j, hj, _⟩
    omega
  | succ fuel ih =>
    rintro s hcur ⟨j, hj, k, hk, helig⟩
    have hn : 0 < s.apiKeys.length := lt_of_le_of_lt (Nat.zero_le _) hcur
    obtain ⟨k0, hget⟩ : ∃ k0, s.apiKeys.get? s.currentKeyIndex = some k0 := by
      rcases List.get?_eq_some.mpr ⟨hcur, rfl⟩ with h
      exact ⟨_, h⟩
    simp only [nextKeyAux, hget]
    by_cases helig0 : eligibleKey limit s k0
    · rw [if_neg helig0.1, if_pos helig0.2]
      exact ⟨k0, _, rfl⟩
    · have hj1 : 1 ≤ j := by
        rcases Nat.eq_zero_or_pos j with rfl | h1
        · exfalso
          rw [Nat.add_zero, Nat.mod_eq_of_lt hcur, hget] at hk
          obtain rfl := Option.some.inj hk
          exact helig0 helig
        · exact h1
      have hmod : ((s.currentKeyIndex + 1) % s.apiKeys.length + (j - 1)) % s.apiKeys.length =
          (s.currentKeyIndex + j) % s.apiKeys.length := by
        rw [Nat.mod_add_mod]
        congr 1
        omega
      by_cases hinv : k0 ∈ s.invalidKeys
      · rw [if_pos hinv]
        refine ih { s with currentKeyIndex := (s.currentKeyIndex + 1) % s.apiKeys.length }
          (Nat.mod_lt _ hn) ⟨j - 1, by omega, k, ?_, helig⟩
        show s.apiKeys.get? _ = some k
        rw [hmod]
        exact hk
      · have hge : ¬ lookupD s.charUsage k0 0 < limit := by
          intro hlt
          exact helig0 ⟨hinv, hlt⟩
        rw [if_neg hinv, if_neg hge]
        refine ih { s with currentKeyIndex := (s.currentKeyIndex + 1) % s.apiKeys.length, invalidKeys := addSet s.invalidKeys k0 } (Nat.mod_lt _ hn) ⟨j - 1, by omega, k, ?_, ?_⟩
        · show s.apiKeys.get? _ = some k
          rw [hmod]
          exact hk
        · rw [eligibleKey_addSet limit s _ k0 k hge]
          exact helig

theorem get_next_exhausted_iff (limit : Nat) (s : LedgerState) (hc : cursorOK s) :
    isExhaustedRes (get_next_valid_api_key limit s) = true ↔
      ∀ k ∈ s.apiKeys, ¬ eligibleKey limit s k := by
  by_cases hne : s.apiKeys = []
  · constructor
    · intro _ k hk
      rw [hne] at hk
      simp at hk
    · intro _
      show isExhaustedRes (nextKeyAux limit s.apiKeys.length s) = true
      rw [hne]
      rfl
  · have hcur : s.currentKeyIndex < s.apiKeys.length := by
      rcases hc with h | h
      · exact h
      · exact absurd h hne
    constructor
    · intro hex
      by_contra hsome
      push_neg at hsome
      obtain ⟨k, hk, helig⟩ := hsome
      obtain ⟨i, hik⟩ := List.mem_iff_get.mp hk
      have hn : 0 < s.apiKeys.length := List.length_pos.mpr hne
      have hj : (i.val + s.apiKeys.length - s.currentKeyIndex) % s.apiKeys.length <
          s.apiKeys.length := Nat.mod_lt _ hn
      have hidx : (s.currentKeyIndex +
          (i.val + s.apiKeys.length - s.currentKeyIndex) % s.apiKeys.length) %
            s.apiKeys.length = i.val := by
        rw [Nat.add_mod_mod]
        have : s.currentKeyIndex + (i.val + s.apiKeys.length - s.currentKeyIndex) =
            i.val + s.apiKeys.length := by omega
        rw [this, Nat.add_mod_right, Nat.mod_eq_of_lt i.isLt]
      have hgi : s.apiKeys.get? ((s.currentKeyIndex +
          (i.val + s.apiKeys.length - s.currentKeyIndex) % s.apiKeys.length) %
            s.apiKeys.length) = some k := by
        rw [hidx, List.get?_eq_get i.isLt]
        exact congrArg some hik
      obtain ⟨key, s', hfound⟩ := nextKeyAux_found_of_elig limit s.apiKeys.length s hcur
        ⟨(i.val + s.apiKeys.length - s.currentKeyIndex) % s.apiKeys.length, hj, k, hgi, helig⟩
      have hex2 : isExhaustedRes (nextKeyAux limit s.apiKeys.length s) = true := hex
      rw [hfound] at hex2
      simp [isExhaustedRes] at hex2
    · intro hnone
      exact nextKeyAux_exhausted_of_none limit s.apiKeys.length s hne hcur hnone

theorem processLoop_exhausted_stop (limit : Nat) (oracle : Nat → String → SendOutcome)
    (cancel : Nat → Bool) (now : Int) (total : Nat) (chunk : List Char)
    (rest : List (List Char)) (i : Nat) (s s1 : LedgerState)
    (hcancel : cancel i = false)
    (hex : get_next_valid_api_key limit s = .exhausted s1) :
    processLoop limit oracle cancel now total (chunk :: rest) i s = ([], s1, .exhausted) := by
  simp [processLoop, hcancel, hex]

/-- Claim C6: the rotator raises the exhausted-pool `RuntimeError` exactly
when a full cycle over the credential list (empty list included) finds no
eligible credential; `process_text` turns that error into a clean stop — the
loop breaks with reason `exhausted`, producing no further events and keeping
everything already produced. -/
theorem exhausted_pool_spec (limit : Nat) :
    (∀ s : LedgerState, cursorOK s →
      (isExhaustedRes (get_next_valid_api_key limit s) = true ↔
        ∀ k ∈ s.apiKeys, ¬ eligibleKey limit s k)) ∧
    (∀ (oracle : Nat → String → SendOutcome) (cancel : Nat → Bool) (now : Int)
        (total : Nat) (chunk : List Char) (rest : List (List Char)) (i : Nat)
        (s s1 : LedgerState), cancel i = false →
      get_next_valid_api_key limit s = .exhausted s1 →
      processLoop limit oracle cancel now total (chunk :: rest) i s = ([], s1, .exhausted)) :=
  ⟨fun s hc => get_next_exhausted_iff limit s hc,
   fun oracle cancel now total chunk rest i s s1 h1 h2 =>
     processLoop_exhausted_stop limit oracle cancel now total chunk rest i s s1 h1 h2⟩

/-- A one-key state whose only credential is invalid, for the C6 witness. -/
def c6State : LedgerState :=
  ⟨["K"], [], [], [], ["K"], 0⟩

/-- Witness for C6: at `c6State` the rotator reports exhaustion (its one key
is ineligible) and the dispatch loop stops cleanly with reason
`exhausted`. -/
theorem exhausted_pool_spec_witness :
    (isExhaustedRes (get_next_valid_api_key 10 c6State) = true ↔
      ∀ k ∈ c6State.apiKeys, ¬ eligibleKey 10 c6State k) ∧
    processLoop 10 (fun _ _ => SendOutcome.success) (fun _ => false) 0 1
      [['a']] 1 c6State = ([], c6State, .exhausted) :=
  ⟨(exhausted_pool_spec 10).1 c6State (Or.inl (by decide)),
   (exhausted_pool_spec 10).2 (fun _ _ => SendOutcome.success) (fun _ => false) 0 1
     ['a'] [] 1 c6State c6State rfl (by decide)⟩

/-! ### C3: what `reset_expired_keys` changes -/

theorem resetLoop_untouched (now window : Int) (k : String) :
    ∀ (items : List (String × Int)) (s : LedgerState),
      (∀ dt, (k, dt) ∈ items → ¬ window ≤ now - dt) →
      lookupKey (resetLoop now window items s).keyUsage k = lookupKey s.keyUsage k ∧
      lookupKey (resetLoop now window items s).charUsage k = lookupKey s.charUsage k ∧
      lookupKey (resetLoop now window items s).firstUsed k = lookupKey s.firstUsed k ∧
      (k ∈ (resetLoop now window items s).invalidKeys ↔ k ∈ s.invalidKeys) := by
  intro items
  induction items with
  | nil =>
    intro s _
    exact ⟨rfl, rfl, rfl, Iff.rfl⟩
  | cons p rest ih =>
    obtain ⟨j, dt⟩ := p
    intro s hyp
    by_cases hexp : window ≤ now - dt
    · have hjk : j ≠ k := by
        intro he
        subst he
        exact hyp dt (List.mem_cons_self _ _) hexp
      simp only [resetLoop, if_pos hexp]
      have ih' := ih { s with keyUsage := setKey s.keyUsage j 0,
                              charUsage := setKey s.charUsage j 0,
                              firstUsed := removeKey s.firstUsed j,
                              invalidKeys := delSet s.invalidKeys j }
        (fun dt2 hmem => hyp dt2 (List.mem_cons_of_mem _ hmem))
      refine ⟨?_, ?_, ?_, ?_⟩
      · rw [ih'.1]
        exact lookupKey_setKey_ne s.keyUsage j k 0 hjk
      · rw [ih'.2.1]
        exact lookupKey_setKey_ne s.charUsage j k 0 hjk
      · rw [ih'.2.2.1]
        exact lookupKey_removeKey_ne s.firstUsed j k hjk
      · refine ih'.2.2.2.trans ?_
        refine (mem_delSet s.invalidKeys j k).trans ?_
        exact and_iff_left (Ne.symm hjk)
    · simp only [resetLoop, if_neg hexp]
      exact ih s (fun dt2 hmem => hyp dt2 (List.mem_cons_of_mem _ hmem))

theorem resetLoop_expired (now window : Int) (k : String) :
    ∀ (items : List (String × Int)) (s : LedgerState) (dt : Int),
      (k, dt) ∈ items → window ≤ now - dt → (items.map Prod.fst).Nodup →
      lookupKey (resetLoop now window items s).keyUsage k = some 0 ∧
      lookupKey (resetLoop now window items s).charUsage k = some 0 ∧
      lookupKey (resetLoop now window items s).firstUsed k = none ∧
      k ∉ (resetLoop now window items s).invalidKeys := by
  intro items
  induction items with
  | nil =>
    intro s dt hmem
    simp at hmem
  | cons p rest ih =>
    obtain ⟨j, dt0⟩ := p
    intro s dt hmem hexp hnd
    simp only [List.map_cons, List.nodup_cons] at hnd
    rcases List.mem_cons.mp hmem with hhead | htail
    · rw [Prod.mk.injEq] at hhead
      obtain ⟨rfl, rfl⟩ := hhead
      simp only [resetLoop, if_pos hexp]
      have hrest : ∀ dt2, (k, dt2) ∈ rest → ¬ window ≤ now - dt2 := by
        intro dt2 hmem2 _
        exact hnd.1 (List.mem_map.mpr ⟨(k, dt2), hmem2, rfl⟩)
      have hu := resetLoop_untouched now window k rest
        { s with keyUsage := setKey s.keyUsage k 0,
                 charUsage := setKey s.charUsage k 0,
                 firstUsed := removeKey s.firstUsed k,
                 invalidKeys := delSet s.invalidKeys k } hrest
      refine ⟨?_, ?_, ?_, ?_⟩
      · rw [hu.1]
        exact lookupKey_setKey_self s.keyUsage k 0
      · rw [hu.2.1]
        exact lookupKey_setKey_self s.charUsage k 0
      · rw [hu.2.2.1]
        exact lookupKey_removeKey_self s.firstUsed k
      · rw [hu.2.2.2]
        intro hmem2
        exact ((mem_delSet s.invalidKeys k k).mp hmem2).2 rfl
    · by_cases hexp0 : window ≤ now - dt0
      · simp only [resetLoop, if_pos hexp0]
        exact ih _ dt htail hexp hnd.2
      · simp only [resetLoop, if_neg hexp0]
        exact ih s dt htail hexp hnd.2

theorem resetLoop_nodup_chars (now window : Int) :
    ∀ (items : List (String × Int)) (s : LedgerState),
      (s.charUsage.map Prod.fst).Nodup →
      ((resetLoop now window items s).charUsage.map Prod.fst).Nodup := by
  intro items
  induction items with
  | nil => intro s h; exact h
  | cons p rest ih =>
    obtain ⟨j, dt⟩ := p
    intro s h
    by_cases hexp : window ≤ now - dt
    · simp only [resetLoop, if_pos hexp]
      exact ih _ (nodupKeys_setKey s.charUsage j 0 h)
    · simp only [resetLoop, if_neg hexp]
      exact ih s h

/-- A state falsifying C3 as stated: "a" has 10 chars used (at the limit of
10), is not invalid and has no `first_used` entry. -/
def c3State : LedgerState :=
  ⟨["a"], [("a", 0)], [("a", 10)], [], [], 0⟩

/-- Counterexample to C3: "a" does not meet the expiry condition (it has no
`firstUsedAt` at all), yet its ledger record changes — the repair pass marks
it invalid because its `charsUsed` is at the limit. -/
theorem reset_expired_keys_cex :
    lookupKey c3State.firstUsed "a" = none ∧
    recordOf (reset_expired_keys 10 100 5 c3State) "a" ≠ recordOf c3State "a" := by
  decide

/-- Claim C3, amended for the repair pass: with a positive char limit,
`reset_expired_keys` zeroes the counters, removes `firstUsedAt` and clears
the invalid flag of every expired credential; every other credential keeps
its counters and `firstUsedAt` unchanged, and keeps its invalid flag except
that a credential at/over the char limit is (re)marked invalid by the repair
pass. -/
theorem reset_expired_keys_spec (limit : Nat) (now window : Int) (s : LedgerState)
    (hwf : WFState s) (hlim : 0 < limit) (k : String) :
    (∀ dt, lookupKey s.firstUsed k = some dt → window ≤ now - dt →
      recordOf (reset_expired_keys limit now window s) k = (0, 0, none, false)) ∧
    ((lookupKey s.firstUsed k = none ∨
        ∃ dt, lookupKey s.firstUsed k = some dt ∧ ¬ window ≤ now - dt) →
      lookupD (reset_expired_keys limit now window s).keyUsage k 0 = lookupD s.keyUsage k 0 ∧
      lookupD (reset_expired_keys limit now window s).charUsage k 0 = lookupD s.charUsage k 0 ∧
      lookupKey (reset_expired_keys limit now window s).firstUsed k = lookupKey s.firstUsed k ∧
      (k ∈ (reset_expired_keys limit now window s).invalidKeys ↔
        k ∈ s.invalidKeys ∨ limit ≤ lookupD s.charUsage k 0)) := by
  obtain ⟨-, hndc, hndf⟩ := hwf
  have hnd1 : ((resetLoop now window s.firstUsed s).charUsage.map Prod.fst).Nodup :=
    resetLoop_nodup_chars now window s.firstUsed s hndc
  constructor
  · intro dt hdt hexp
    have hmem : (k, dt) ∈ s.firstUsed := entry_mem_of_lookupKey s.firstUsed k dt hdt
    have he := resetLoop_expired now window k s.firstUsed s dt hmem hexp hndf
    have hinv : k ∉ (reset_expired_keys limit now window s).invalidKeys := by
      show k ∉ repairLoop limit (resetLoop now window s.firstUsed s).charUsage
        (resetLoop now window s.firstUsed s).invalidKeys
      rw [mem_repairLoop]
      rintro (hmem2 | ⟨u, hu, hlu⟩)
      · exact he.2.2.2 hmem2
      · have := lookupKey_of_entry_mem _ k u hu hnd1
        rw [he.2.1] at this
        obtain rfl := Option.some.inj this
        omega
    have h1 : lookupD (reset_expired_keys limit now window s).keyUsage k 0 = 0 := by
      show lookupD (resetLoop now window s.firstUsed s).keyUsage k 0 = 0
      rw [lookupD, he.1]
      rfl
    have h2 : lookupD (reset_expired_keys limit now window s).charUsage k 0 = 0 := by
      show lookupD (resetLoop now window s.firstUsed s).charUsage k 0 = 0
      rw [lookupD, he.2.1]
      rfl
    have h3 : lookupKey (reset_expired_keys limit now window s).firstUsed k = none := he.2.2.1
    simp [recordOf, h1, h2, h3, hinv]
  · intro hcase
    have hunex : ∀ dt, (k, dt) ∈ s.firstUsed → ¬ window ≤ now - dt := by
      intro dt hmem
      have hl := lookupKey_of_entry_mem s.firstUsed k dt hmem hndf
      rcases hcase with hnone | ⟨dt2, hdt2, hne⟩
      · rw [hnone] at hl
        exact absurd hl (by simp)
      · rw [hdt2] at hl
        obtain rfl := Option.some.inj hl
        exact hne
    have hu := resetLoop_untouched now window k s.firstUsed s hunex
    refine ⟨?_, ?_, hu.2.2.1, ?_⟩
    · show lookupD (resetLoop now window s.firstUsed s).keyUsage k 0 = _
      rw [lookupD, hu.1]
      rfl
    · show lookupD (resetLoop now window s.firstUsed s).charUsage k 0 = _
      rw [lookupD, hu.2.1]
      rfl
    · show k ∈ repairLoop limit (resetLoop now window s.firstUsed s).charUsage
        (resetLoop now window s.firstUsed s).invalidKeys ↔ _
      rw [mem_repairLoop, hu.2.2.2]
      constructor
      · rintro (hmem | ⟨u, hu2, hlu⟩)
        · exact Or.inl hmem
        · right
          have := lookupKey_of_entry_mem _ k u hu2 hnd1
          rw [hu.2.1] at this
          rw [lookupD, this]
          exact hlu
      · rintro (hmem | hle)
        · exact Or.inl hmem
        · right
          rcases hlk : lookupKey s.charUsage k with _ | u
          · rw [lookupD, hlk] at hle
            simp at hle
            omega
          · refine ⟨u, ?_, ?_⟩
            · refine entry_mem_of_lookupKey _ k u ?_
              rw [hu.2.1, hlk]
            · rw [lookupD, hlk] at hle
              exact hle

/-- A state for the C3 witness: "a" expired (first used at time 0), "b" not
expired with 10 chars used. -/
def c3WState : LedgerState :=
  ⟨["a", "b"], [("a", 1), ("b", 2)], [("a", 3), ("b", 10)], [("a", 0)], [], 0⟩

/-- Witness for C3 at `c3WState` (`now` 100, `window` 5, limit 10): "a" is
fully reset, "b" keeps its counters but is marked invalid by the repair
pass. -/
theorem reset_expired_keys_spec_witness :
    recordOf (reset_expired_keys 10 100 5 c3WState) "a" = (0, 0, none, false) ∧
    (lookupD (reset_expired_keys 10 100 5 c3WState).keyUsage "b" 0 =
        lookupD c3WState.keyUsage "b" 0 ∧
      lookupD (reset_expired_keys 10 100 5 c3WState).charUsage "b" 0 =
        lookupD c3WState.charUsage "b" 0 ∧
      lookupKey (reset_expired_keys 10 100 5 c3WState).firstUsed "b" =
        lookupKey c3WState.firstUsed "b" ∧
      ("b" ∈ (reset_expired_keys 10 100 5 c3WState).invalidKeys ↔
        "b" ∈ c3WState.invalidKeys ∨ 10 ≤ lookupD c3WState.charUsage "b" 0)) :=
  ⟨(reset_expired_keys_spec 10 100 5 c3WState (by decide) (by decide) "a").1 0
      (by decide) (by decide),
   (reset_expired_keys_spec 10 100 5 c3WState (by decide) (by decide) "b").2
      (Or.inl (by decide))⟩

/-! ### Component lemmas for the ledger operations -/

theorem recordUsage_keyUsage (limit : Nat) (key : String) (n : Nat) (now : Int)
    (s : LedgerState) : (recordUsage limit key n now s).keyUsage =
      setKey s.keyUsage key (lookupD s.keyUsage key 0 + 1) := by
  simp only [recordUsage]
  split <;> split <;> rfl

theorem recordUsage_charUsage (limit : Nat) (key : String) (n : Nat) (now : Int)
    (s : LedgerState) : (recordUsage limit key n now s).charUsage =
      setKey s.charUsage key (lookupD s.charUsage key 0 + n) := by
  simp only [recordUsage]
  split <;> split <;> rfl

theorem recordUsage_firstUsed (limit : Nat) (key : String) (n : Nat) (now : Int)
    (s : LedgerState) : (recordUsage limit key n now s).firstUsed =
      if (lookupKey s.firstUsed key).isNone then s.firstUsed ++ [(key, now)]
      else s.firstUsed := by
  simp only [recordUsage]
  split <;> split <;> simp_all

theorem recordUsage_apiKeys (limit : Nat) (key : String) (n : Nat) (now : Int)
    (s : LedgerState) : (recordUsage limit key n now s).apiKeys = s.apiKeys := by
  simp only [recordUsage]
  split <;> split <;> rfl

theorem recordUsage_invalid_mono (limit : Nat) (key : String) (n : Nat) (now : Int)
    (s : LedgerState) (k : String) (h : k ∈ s.invalidKeys) :
    k ∈ (recordUsage limit key n now s).invalidKeys := by
  simp only [recordUsage]
  split
  · split
    · exact (mem_addSet _ _ _).mpr (Or.inl h)
    · exact h
  · split
    · exact (mem_addSet _ _ _).mpr (Or.inl h)
    · exact h

theorem lookupKey_foldl_setKey {α : Type} (g : String → α) :
    ∀ (l : List String) (m : List (String × α)) (k : String),
      lookupKey (l.foldl (fun m2 j => setKey m2 j (g j)) m) k =
        if k ∈ l then some (g k) else lookupKey m k := by
  intro l
  induction l with
  | nil => intro m k; simp
  | cons j rest ih =>
    intro m k
    show lookupKey (rest.foldl (fun m2 j2 => setKey m2 j2 (g j2)) (setKey m j (g j))) k = _
    rw [ih]
    by_cases hr : k ∈ rest
    · simp [hr]
    · by_cases hjk : j = k
      · subst hjk
        simp [hr, lookupKey_setKey_self]
      · rw [if_neg hr, lookupKey_setKey_ne m j k _ hjk]
        have : k ∉ j :: rest := by
          intro hmem
          rcases List.mem_cons.mp hmem with h1 | h1
          · exact hjk h1.symm
          · exact hr h1
        rw [if_neg this]

theorem lookupKey_foldl_setFirst (f : List (String × Int)) :
    ∀ (l : List String) (m : List (String × Int)) (k : String),
      lookupKey (l.foldl (fun m2 j => match lookupKey f j with
          | some dt => setKey m2 j dt
          | none => m2) m) k =
        if k ∈ l ∧ (lookupKey f k).isSome then lookupKey f k else lookupKey m k := by
  intro l
  induction l with
  | nil => intro m k; simp
  | cons j rest ih =>
    intro m k
    show lookupKey (rest.foldl _ (match lookupKey f j with
        | some dt => setKey m j dt
        | none => m)) k = _
    rw [ih]
    by_cases hr : k ∈ rest ∧ (lookupKey f k).isSome
    · rw [if_pos hr, if_pos ⟨List.mem_cons_of_mem j hr.1, hr.2⟩]
    · rw [if_neg hr]
      by_cases hjk : j = k
      · subst hjk
        rcases hf : lookupKey f j with _ | dt
        · simp
        · simp [lookupKey_setKey_self]
      · have hnc : ¬ (k ∈ j :: rest ∧ (lookupKey f k).isSome) := by
          rintro ⟨hmem, hsome⟩
          rcases List.mem_cons.mp hmem with h1 | h1
          · exact hjk h1.symm
          · exact hr ⟨h1, hsome⟩
        rw [if_neg hnc]
        rcases hf : lookupKey f j with _ | dt
        · rfl
        · exact lookupKey_setKey_ne m j k dt hjk

theorem lookupD_setDefault_zero (m : List (String × Nat)) (j k : String) :
    lookupD (setDefault m j 0) k 0 = lookupD m k 0 := by
  unfold setDefault
  rcases hj : lookupKey m j with _ | w
  · unfold lookupD
    rw [lookupKey_append_one]
    rcases hk : lookupKey m k with _ | u <;> simp [hk]
    by_cases hjk : j = k <;> simp [hjk]
  · rfl

theorem lookupD_foldl_setDefault :
    ∀ (l : List String) (m : List (String × Nat)) (k : String),
      lookupD (l.foldl (fun m2 j => setDefault m2 j 0) m) k 0 = lookupD m k 0 := by
  intro l
  induction l with
  | nil => intro m k; rfl
  | cons j rest ih =>
    intro m k
    show lookupD (rest.foldl _ (setDefault m j 0)) k 0 = _
    rw [ih]
    exact lookupD_setDefault_zero m j k

theorem rekeyLedger_keyUsage (newKeys : List String) (s : LedgerState) (k : String) :
    lookupKey (rekeyLedger newKeys s).keyUsage k =
      if k ∈ newKeys then some (lookupD s.keyUsage k 0) else none := by
  show lookupKey (newKeys.foldl _ []) k = _
  rw [lookupKey_foldl_setKey (fun j => lookupD s.keyUsage j 0) newKeys [] k]
  rfl

theorem rekeyLedger_charUsage (newKeys : List String) (s : LedgerState) (k : String) :
    lookupKey (rekeyLedger newKeys s).charUsage k =
      if k ∈ newKeys then some (lookupD s.charUsage k 0) else none := by
  show lookupKey (newKeys.foldl _ []) k = _
  rw [lookupKey_foldl_setKey (fun j => lookupD s.charUsage j 0) newKeys [] k]
  rfl

theorem rekeyLedger_firstUsed (newKeys : List String) (s : LedgerState) (k : String) :
    lookupKey (rekeyLedger newKeys s).firstUsed k =
      if k ∈ newKeys ∧ (lookupKey s.firstUsed k).isSome
      then lookupKey s.firstUsed k else none := by
  show lookupKey (newKeys.foldl _ []) k = _
  rw [lookupKey_foldl_setFirst s.firstUsed newKeys [] k]
  rfl

theorem rekeyLedger_invalid (newKeys : List String) (s : LedgerState) (k : String) :
    k ∈ (rekeyLedger newKeys s).invalidKeys ↔ k ∈ s.invalidKeys ∧ k ∈ newKeys := by
  show k ∈ s.invalidKeys.filter _ ↔ _
  rw [List.mem_filter]
  simp

/-! ### C4: the no-first-use invariant over reachable ledger states -/

theorem counterInv_recordUsage (limit : Nat) (key : String) (n : Nat) (now : Int)
    (s : LedgerState) (h : counterInv s) : counterInv (recordUsage limit key n now s) := by
  intro k hk
  rw [recordUsage_firstUsed] at hk
  by_cases hkey : key = k
  · subst hkey
    exfalso
    by_cases h1 : (lookupKey s.firstUsed key).isNone
    · rw [if_pos h1, lookupKey_append_one] at hk
      rcases h2 : lookupKey s.firstUsed key with _ | dt
      · rw [h2] at hk
        simp at hk
      · rw [h2] at hk
        simp at hk
    · rw [if_neg h1] at hk
      rw [hk] at h1
      simp at h1
  · have hfu : lookupKey s.firstUsed k = none := by
      by_cases h1 : (lookupKey s.firstUsed key).isNone
      · rw [if_pos h1, lookupKey_append_one] at hk
        rcases h2 : lookupKey s.firstUsed k with _ | dt
        · rfl
        · rw [h2] at hk
          simp at hk
      · rwa [if_neg h1] at hk
    have hku : lookupD (recordUsage limit key n now s).keyUsage k 0 = lookupD s.keyUsage k 0 := by
      rw [lookupD, recordUsage_keyUsage, lookupKey_setKey_ne s.keyUsage key k _ hkey]
      rfl
    have hcu : lookupD (recordUsage limit key n now s).charUsage k 0 = lookupD s.charUsage k 0 := by
      rw [lookupD, recordUsage_charUsage, lookupKey_setKey_ne s.charUsage key k _ hkey]
      rfl
    rcases h k hfu with ⟨h1, h2⟩ | ⟨h1, h2, h3⟩
    · exact Or.inl ⟨by rw [hku]; exact h1, by rw [hcu]; exact h2⟩
    · exact Or.inr ⟨by rw [hku]; exact h1, by rw [hcu]; exact h2,
        recordUsage_invalid_mono limit key n now s k h3⟩

theorem counterInv_poison (key : String) (s : LedgerState) (h : counterInv s) :
    counterInv (poisonKey key s) := by
  intro k hk
  have hfu : lookupKey s.firstUsed k = none := hk
  by_cases hkey : key = k
  · subst hkey
    right
    refine ⟨?_, ?_, (mem_addSet _ _ _).mpr (Or.inr rfl)⟩
    · rw [lookupD]
      show (lookupKey (setKey s.keyUsage key 4) key).getD 0 = 4
      rw [lookupKey_setKey_self]
      rfl
    · rw [lookupD]
      show (lookupKey (setKey s.charUsage key 4) key).getD 0 = 4
      rw [lookupKey_setKey_self]
      rfl
  · have hku : lookupD (poisonKey key s).keyUsage k 0 = lookupD s.keyUsage k 0 := by
      rw [lookupD]
      show (lookupKey (setKey s.keyUsage key 4) k).getD 0 = _
      rw [lookupKey_setKey_ne s.keyUsage key k 4 hkey]
      rfl
    have hcu : lookupD (poisonKey key s).charUsage k 0 = lookupD s.charUsage k 0 := by
      rw [lookupD]
      show (lookupKey (setKey s.charUsage key 4) k).getD 0 = _
      rw [lookupKey_setKey_ne s.charUsage key k 4 hkey]
      rfl
    rcases h k hfu with ⟨h1, h2⟩ | ⟨h1, h2, h3⟩
    · exact Or.inl ⟨by rw [hku]; exact h1, by rw [hcu]; exact h2⟩
    · exact Or.inr ⟨by rw [hku]; exact h1, by rw [hcu]; exact h2,
        (mem_addSet _ _ _).mpr (Or.inl h3)⟩

theorem counterInv_resetLoop (now window : Int) :
    ∀ (items : List (String × Int)) (s : LedgerState),
      counterInv s → counterInv (resetLoop now window items s) := by
  intro items
  induction items with
  | nil => intro s h; exact h
  | cons p rest ih =>
    obtain ⟨j, dt⟩ := p
    intro s h
    by_cases hexp : window ≤ now - dt
    · simp only [resetLoop, if_pos hexp]
      refine ih _ ?_
      intro k hk
      by_cases hjk : j = k
      · subst hjk
        left
        constructor
        · show lookupD (setKey s.keyUsage j 0) j 0 = 0
          rw [lookupD, lookupKey_setKey_self]
          rfl
        · show lookupD (setKey s.charUsage j 0) j 0 = 0
          rw [lookupD, lookupKey_setKey_self]
          rfl
      · have hfu : lookupKey s.firstUsed k = none := by
          have : lookupKey (removeKey s.firstUsed j) k = none := hk
          rwa [lookupKey_removeKey_ne s.firstUsed j k hjk] at this
        have hku : lookupD (setKey s.keyUsage j 0) k 0 = lookupD s.keyUsage k 0 := by
          rw [lookupD, lookupKey_setKey_ne s.keyUsage j k 0 hjk]
          rfl
        have hcu : lookupD (setKey s.charUsage j 0) k 0 = lookupD s.charUsage k 0 := by
          rw [lookupD, lookupKey_setKey_ne s.charUsage j k 0 hjk]
          rfl
        rcases h k hfu with ⟨h1, h2⟩ | ⟨h1, h2, h3⟩
        · exact Or.inl ⟨by rw [hku]; exact h1, by rw [hcu]; exact h2⟩
        · refine Or.inr ⟨by rw [hku]; exact h1, by rw [hcu]; exact h2, ?_⟩
          show k ∈ delSet s.invalidKeys j
          exact (mem_delSet _ _ _).mpr ⟨h3, Ne.symm hjk⟩
    · simp only [resetLoop, if_neg hexp]
      exact ih s h

theorem counterInv_reset (limit : Nat) (now window : Int) (s : LedgerState)
    (h : counterInv s) : counterInv (reset_expired_keys limit now window s) := by
  intro k hk
  have h1 := counterInv_resetLoop now window s.firstUsed s h
  have hk1 : lookupKey (resetLoop now window s.firstUsed s).firstUsed k = none := hk
  rcases h1 k hk1 with ⟨ha, hb⟩ | ⟨ha, hb, hc⟩
  · exact Or.inl ⟨ha, hb⟩
  · refine Or.inr ⟨ha, hb, ?_⟩
    show k ∈ repairLoop limit (resetLoop now window s.firstUsed s).charUsage
      (resetLoop now window s.firstUsed s).invalidKeys
    rw [mem_repairLoop]
    exact Or.inl hc

theorem counterInv_rekey (newKeys : List String) (s : LedgerState) (h : counterInv s) :
    counterInv (rekeyLedger newKeys s) := by
  intro k hk
  rw [rekeyLedger_firstUsed] at hk
  by_cases hknk : k ∈ newKeys
  · have hfu : lookupKey s.firstUsed k = none := by
      by_cases hs : (lookupKey s.firstUsed k).isSome
      · rw [if_pos ⟨hknk, hs⟩] at hk
        rw [hk] at hs
        simp at hs
      · rcases h2 : lookupKey s.firstUsed k with _ | dt
        · rfl
        · rw [h2] at hs
          simp at hs
    have hku : lookupD (rekeyLedger newKeys s).keyUsage k 0 = lookupD s.keyUsage k 0 := by
      rw [lookupD, rekeyLedger_keyUsage, if_pos hknk]
      rfl
    have hcu : lookupD (rekeyLedger newKeys s).charUsage k 0 = lookupD s.charUsage k 0 := by
      rw [lookupD, rekeyLedger_charUsage, if_pos hknk]
      rfl
    rcases h k hfu with ⟨h1, h2⟩ | ⟨h1, h2, h3⟩
    · exact Or.inl ⟨by rw [hku]; exact h1, by rw [hcu]; exact h2⟩
    · exact Or.inr ⟨by rw [hku]; exact h1, by rw [hcu]; exact h2,
        (rekeyLedger_invalid newKeys s k).mpr ⟨h3, hknk⟩⟩
  · left
    constructor
    · rw [lookupD, rekeyLedger_keyUsage, if_neg hknk]
      rfl
    · rw [lookupD, rekeyLedger_charUsage, if_neg hknk]
      rfl

theorem counterInv_init (keys : List String) (s : LedgerState) (h : counterInv s) :
    counterInv (initUsage keys s) := by
  intro k hk
  have hfu : lookupKey s.firstUsed k = none := hk
  have hku : lookupD (initUsage keys s).keyUsage k 0 = lookupD s.keyUsage k 0 :=
    lookupD_foldl_setDefault keys s.keyUsage k
  have hcu : lookupD (initUsage keys s).charUsage k 0 = lookupD s.charUsage k 0 :=
    lookupD_foldl_setDefault keys s.charUsage k
  rcases h k hfu with ⟨h1, h2⟩ | ⟨h1, h2, h3⟩
  · exact Or.inl ⟨by rw [hku]; exact h1, by rw [hcu]; exact h2⟩
  · exact Or.inr ⟨by rw [hku]; exact h1, by rw [hcu]; exact h2, h3⟩

theorem counterInv_applyOp (op : LOp) (s : LedgerState) (h : counterInv s) :
    counterInv (applyOp op s) := by
  cases op with
  | recordOp limit key n now => exact counterInv_recordUsage limit key n now s h
  | poisonOp key => exact counterInv_poison key s h
  | resetOp limit now window => exact counterInv_reset limit now window s h
  | rekeyOp newKeys =>
    show counterInv (if newKeys = [] then s else rekeyLedger newKeys s)
    by_cases he : newKeys = []
    · rwa [if_pos he]
    · rw [if_neg he]
      exact counterInv_rekey newKeys s h
  | initOp keys => exact counterInv_init keys s h

theorem counterInv_applyOps :
    ∀ (ops : List LOp) (s : LedgerState), counterInv s → counterInv (applyOps ops s) := by
  intro ops
  induction ops with
  | nil => intro s h; exact h
  | cons op rest ih =>
    intro s h
    show counterInv (applyOps rest (applyOp op s))
    exact ih _ (counterInv_applyOp op s h)

/-- Claim C4, amended for poisoning: in every state reachable from a fresh
ledger by the ledger operations, a credential with no `first_used` entry
either has both counters 0 or was poisoned — both counters at the sentinel 4
and the key flagged invalid.  (As stated, the claim fails: poisoning sets the
counters to 4 without setting `first_used`.) -/
theorem ledger_counter_inv (s : LedgerState) (ops : List LOp) (hs : EmptyLedger s) :
    counterInv (applyOps ops s) := by
  refine counterInv_applyOps ops s ?_
  intro k hk
  obtain ⟨h1, h2, -, -⟩ := hs
  exact Or.inl ⟨by rw [lookupD, h1]; rfl, by rw [lookupD, h2]; rfl⟩

/-- A fresh one-key ledger for C4. -/
def c4State : LedgerState :=
  ⟨["k"], [], [], [], [], 0⟩

/-- Counterexample to C4 as stated: after poisoning, "k" has no `first_used`
entry yet its counters are the sentinel 4, not 0. -/
theorem ledger_counter_inv_cex :
    EmptyLedger c4State ∧
    lookupKey (applyOps [LOp.poisonOp "k"] c4State).firstUsed "k" = none ∧
    ¬ (lookupD (applyOps [LOp.poisonOp "k"] c4State).keyUsage "k" 0 = 0 ∧
       lookupD (applyOps [LOp.poisonOp "k"] c4State).charUsage "k" 0 = 0) := by
  decide

/-- Witness for C4 (amended): the poisoned key falls into the sentinel
disjunct. -/
theorem ledger_counter_inv_witness :
    (lookupD (applyOps [LOp.poisonOp "k"] c4State).keyUsage "k" 0 = 0 ∧
      lookupD (applyOps [LOp.poisonOp "k"] c4State).charUsage "k" 0 = 0) ∨
    (lookupD (applyOps [LOp.poisonOp "k"] c4State).keyUsage "k" 0 = 4 ∧
      lookupD (applyOps [LOp.poisonOp "k"] c4State).charUsage "k" 0 = 4 ∧
      "k" ∈ (applyOps [LOp.poisonOp "k"] c4State).invalidKeys) :=
  ledger_counter_inv c4State [LOp.poisonOp "k"] (by decide) "k" (by decide)

/-! ### C5: counter monotonicity -/

/-- The operations the (amended) monotonicity claim excepts: the resets of
`reset_expired_keys` and the sentinel overwrite of poisoning. -/
def monotoneExempt : LOp → Bool
  | .poisonOp _ => true
  | .resetOp .. => true
  | _ => false

/-- Claim C5, amended: `key_usage` and `char_usage` are non-decreasing for
every credential still in the pool across every ledger operation except the
resets of `reset_expired_keys` and — missed by the claim as stated — the
poisoning overwrite, which forces both counters to the sentinel 4. -/
theorem ledger_counter_monotone (op : LOp) (s : LedgerState)
    (hop : monotoneExempt op = false) (k : String) (hk : k ∈ (applyOp op s).apiKeys) :
    lookupD s.keyUsage k 0 ≤ lookupD (applyOp op s).keyUsage k 0 ∧
    lookupD s.charUsage k 0 ≤ lookupD (applyOp op s).charUsage k 0 := by
  cases op with
  | recordOp limit key n now =>
    show lookupD s.keyUsage k 0 ≤ lookupD (recordUsage limit key n now s).keyUsage k 0 ∧
      lookupD s.charUsage k 0 ≤ lookupD (recordUsage limit key n now s).charUsage k 0
    by_cases hkey : key = k
    · subst hkey
      constructor
      · rw [recordUsage_keyUsage]
        unfold lookupD
        rw [lookupKey_setKey_self]
        show lookupD s.keyUsage key 0 ≤ lookupD s.keyUsage key 0 + 1
        omega
      · rw [recordUsage_charUsage]
        unfold lookupD
        rw [lookupKey_setKey_self]
        show lookupD s.charUsage key 0 ≤ lookupD s.charUsage key 0 + n
        omega
    · constructor
      · rw [recordUsage_keyUsage]
        unfold lookupD
        rw [lookupKey_setKey_ne s.keyUsage key k _ hkey]
      · rw [recordUsage_charUsage]
        unfold lookupD
        rw [lookupKey_setKey_ne s.charUsage key k _ hkey]
  | poisonOp key => simp [monotoneExempt] at hop
  | resetOp limit now window => simp [monotoneExempt] at hop
  | rekeyOp newKeys =>
    show lookupD s.keyUsage k 0 ≤
        lookupD (if newKeys = [] then s else rekeyLedger newKeys s).keyUsage k 0 ∧
      lookupD s.charUsage k 0 ≤
        lookupD (if newKeys = [] then s else rekeyLedger newKeys s).charUsage k 0
    by_cases he : newKeys = []
    · rw [if_pos he]
      exact ⟨le_refl _, le_refl _⟩
    · rw [if_neg he]
      have hknk : k ∈ newKeys := by
        have : k ∈ (applyOp (LOp.rekeyOp newKeys) s).apiKeys := hk
        show k ∈ newKeys
        simp only [applyOp, if_neg he] at this
        exact this
      constructor
      · unfold lookupD
        rw [rekeyLedger_keyUsage, if_pos hknk]
        exact le_refl _
      · unfold lookupD
        rw [rekeyLedger_charUsage, if_pos hknk]
        exact le_refl _
  | initOp keys =>
    constructor
    · show lookupD s.keyUsage k 0 ≤
        lookupD (keys.foldl (fun m2 j => setDefault m2 j 0) s.keyUsage) k 0
      rw [lookupD_foldl_setDefault keys s.keyUsage k]
    · show lookupD s.charUsage k 0 ≤
        lookupD (keys.foldl (fun m2 j => setDefault m2 j 0) s.charUsage) k 0
      rw [lookupD_foldl_setDefault keys s.charUsage k]

/-- A ledger where "k" already has real usage, for the C5 counterexample. -/
def c5State : LedgerState :=
  ⟨["k"], [("k", 7)], [("k", 100)], [("k", 0)], [], 0⟩

/-- Counterexample to C5 as stated: poisoning — an operation between two
`recordUsage` calls that is not a `reset_expired_keys` reset — decreases both
counters of "k" (from 100/7 down to the sentinel 4). -/
theorem ledger_counter_monotone_cex :
    lookupD (applyOp (LOp.poisonOp "k") c5State).charUsage "k" 0 <
      lookupD c5State.charUsage "k" 0 ∧
    lookupD (applyOp (LOp.poisonOp "k") c5State).keyUsage "k" 0 <
      lookupD c5State.keyUsage "k" 0 := by
  decide

/-- Witness for C5 (amended) at a concrete `recordUsage` operation. -/
theorem ledger_counter_monotone_witness :
    lookupD c5State.keyUsage "k" 0 ≤
      lookupD (applyOp (LOp.recordOp 1000 "k" 3 50) c5State).keyUsage "k" 0 ∧
    lookupD c5State.charUsage "k" 0 ≤
      lookupD (applyOp (LOp.recordOp 1000 "k" 3 50) c5State).charUsage "k" 0 :=
  ledger_counter_monotone (LOp.recordOp 1000 "k" 3 50) c5State rfl "k" (by decide)

/-! ### C7: replacing the credential list -/

/-- Claim C7: a replacement that parses to an empty key list is rejected
before any mutation — the whole state (list, maps, invalid set, cursor) is
unchanged; a non-empty replacement installs the new list, preserves the
usage record of every retained credential, drops the records of removed
credentials entirely, and resets the cursor to 0. -/
theorem save_and_close_spec (lines : List String) (s : LedgerState) :
    (parseKeyLines lines = [] → save_and_close lines s = s) ∧
    (parseKeyLines lines ≠ [] →
      (save_and_close lines s).apiKeys = parseKeyLines lines ∧
      (save_and_close lines s).currentKeyIndex = 0 ∧
      (∀ k ∈ parseKeyLines lines,
        lookupD (save_and_close lines s).keyUsage k 0 = lookupD s.keyUsage k 0 ∧
        lookupD (save_and_close lines s).charUsage k 0 = lookupD s.charUsage k 0 ∧
        lookupKey (save_and_close lines s).firstUsed k = lookupKey s.firstUsed k ∧
        (k ∈ (save_and_close lines s).invalidKeys ↔ k ∈ s.invalidKeys)) ∧
      (∀ k, k ∉ parseKeyLines lines →
        lookupKey (save_and_close lines s).keyUsage k = none ∧
        lookupKey (save_and_close lines s).charUsage k = none ∧
        lookupKey (save_and_close lines s).firstUsed k = none ∧
        k ∉ (save_and_close lines s).invalidKeys)) := by
  constructor
  · intro he
    show (if parseKeyLines lines = [] then s else rekeyLedger (parseKeyLines lines) s) = s
    rw [if_pos he]
  · intro hne
    have hsc : save_and_close lines s = rekeyLedger (parseKeyLines lines) s := by
      show (if parseKeyLines lines = [] then s else rekeyLedger (parseKeyLines lines) s) = _
      rw [if_neg hne]
    rw [hsc]
    refine ⟨rfl, rfl, ?_, ?_⟩
    · intro k hk
      refine ⟨?_, ?_, ?_, ?_⟩
      · unfold lookupD
        rw [rekeyLedger_keyUsage, if_pos hk]
        rfl
      · unfold lookupD
        rw [rekeyLedger_charUsage, if_pos hk]
        rfl
      · rw [rekeyLedger_firstUsed]
        by_cases hs2 : (lookupKey s.firstUsed k).isSome
        · rw [if_pos ⟨hk, hs2⟩]
        · rw [if_neg (fun hc => hs2 hc.2)]
          rcases h2 : lookupKey s.firstUsed k with _ | dt
          · rfl
          · rw [h2] at hs2
            simp at hs2
      · rw [rekeyLedger_invalid]
        exact and_iff_left hk
    · intro k hk
      refine ⟨?_, ?_, ?_, ?_⟩
      · rw [rekeyLedger_keyUsage, if_neg hk]
      · rw [rekeyLedger_charUsage, if_neg hk]
      · rw [rekeyLedger_firstUsed, if_neg (fun hc => hk hc.1)]
      · rw [rekeyLedger_invalid]
        exact fun hc => hk hc.2

/-- A state with two keys ("a" retained, "c" removed) for the C7 witness. -/
def c7State : LedgerState :=
  ⟨["a", "c"], [("a", 5), ("c", 6)], [("a", 7), ("c", 8)], [("a", 2)], ["c"], 1⟩

/-- Witness for C7: a whitespace-only entry is rejected with no mutation; the
replacement `["a", "b"]` keeps the record of "a", drops "c" entirely and
resets the cursor. -/
theorem save_and_close_spec_witness :
    save_and_close ["  "] c7State = c7State ∧
    (save_and_close ["a", "b"] c7State).apiKeys = parseKeyLines ["a", "b"] ∧
    (save_and_close ["a", "b"] c7State).currentKeyIndex = 0 ∧
    (lookupD (save_and_close ["a", "b"] c7State).keyUsage "a" 0 =
        lookupD c7State.keyUsage "a" 0 ∧
      lookupD (save_and_close ["a", "b"] c7State).charUsage "a" 0 =
        lookupD c7State.charUsage "a" 0 ∧
      lookupKey (save_and_close ["a", "b"] c7State).firstUsed "a" =
        lookupKey c7State.firstUsed "a" ∧
      ("a" ∈ (save_and_close ["a", "b"] c7State).invalidKeys ↔
        "a" ∈ c7State.invalidKeys)) ∧
    (lookupKey (save_and_close ["a", "b"] c7State).keyUsage "c" = none ∧
      lookupKey (save_and_close ["a", "b"] c7State).charUsage "c" = none ∧
      lookupKey (save_and_close ["a", "b"] c7State).firstUsed "c" = none ∧
      "c" ∉ (save_and_close ["a", "b"] c7State).invalidKeys) :=
  ⟨(save_and_close_spec ["  "] c7State).1 (by decide),
   ((save_and_close_spec ["a", "b"] c7State).2 (by decide)).1,
   ((save_and_close_spec ["a", "b"] c7State).2 (by decide)).2.1,
   ((save_and_close_spec ["a", "b"] c7State).2 (by decide)).2.2.1 "a" (by decide),
   ((save_and_close_spec ["a", "b"] c7State).2 (by decide)).2.2.2 "c" (by decide)⟩

/-! ### C8 and C9: the per-chunk trace -/

theorem processLoop_cons_cancel (limit : Nat) (oracle : Nat → String → SendOutcome)
    (cancel : Nat → Bool) (now : Int) (total : Nat) (chunk : List Char)
    (rest : List (List Char)) (i : Nat) (s : LedgerState) (hc : cancel i = true) :
    processLoop limit oracle cancel now total (chunk :: rest) i s = ([], s, .cancelled) := by
  simp [processLoop, hc]

theorem processLoop_cons_indexErr (limit : Nat) (oracle : Nat → String → SendOutcome)
    (cancel : Nat → Bool) (now : Int) (total : Nat) (chunk : List Char)
    (rest : List (List Char)) (i : Nat) (s s1 : LedgerState) (hc : cancel i = false)
    (hg : get_next_valid_api_key limit s = .indexErr s1) :
    processLoop limit oracle cancel now total (chunk :: rest) i s = ([], s1, .crashed) := by
  simp [processLoop, hc, hg]

theorem processLoop_cons_success (limit : Nat) (oracle : Nat → String → SendOutcome)
    (cancel : Nat → Bool) (now : Int) (total : Nat) (chunk : List Char)
    (rest : List (List Char)) (i : Nat) (s s1 : LedgerState) (key : String)
    (hc : cancel i = false) (hg : get_next_valid_api_key limit s = .found key s1)
    (ho : oracle i key = .success) :
    processLoop limit oracle cancel now total (chunk :: rest) i s =
      (Ev.send i key true :: Ev.progress i total :: Ev.sleep 3 ::
        (processLoop limit oracle cancel now total rest (i + 1)
          (recordUsage limit key chunk.length now s1)).1,
       (processLoop limit oracle cancel now total rest (i + 1)
          (recordUsage limit key chunk.length now s1)).2) := by
  simp [processLoop, hc, hg, ho, sendModel]

theorem processLoop_cons_fail (limit : Nat) (oracle : Nat → String → SendOutcome)
    (cancel : Nat → Bool) (now : Int) (total : Nat) (chunk : List Char)
    (rest : List (List Char)) (i : Nat) (s s1 s2 : LedgerState) (key : String)
    (hc : cancel i = false) (hg : get_next_valid_api_key limit s = .found key s1)
    (hsend : sendModel (oracle i key) key s1 = (false, s2)) :
    processLoop limit oracle cancel now total (chunk :: rest) i s =
      (Ev.send i key false ::
        (processLoop limit oracle cancel now total rest (i + 1) s2).1,
       (processLoop limit oracle cancel now total rest (i + 1) s2).2) := by
  simp [processLoop, hc, hg, hsend]

theorem processLoop_trace_shape (limit : Nat) (oracle : Nat → String → SendOutcome)
    (cancel : Nat → Bool) (now : Int) (total : Nat) :
    ∀ (chunks : List (List Char)) (i : Nat) (s : LedgerState),
      (processLoop limit oracle cancel now total chunks i s).1 = [] ∨
      ∃ j k2 ok t, (processLoop limit oracle cancel now total chunks i s).1 =
        Ev.send j k2 ok :: t := by
  intro chunks i s
  cases chunks with
  | nil => exact Or.inl rfl
  | cons chunk rest =>
    cases hc : cancel i with
    | true =>
      rw [processLoop_cons_cancel limit oracle cancel now total chunk rest i s hc]
      exact Or.inl rfl
    | false =>
      rcases hg : get_next_valid_api_key limit s with ⟨key, s1⟩ | s1 | s1
      · rcases ho : oracle i key with _ | _ | _
        · rw [processLoop_cons_success limit oracle cancel now total chunk rest i s s1 key hc hg ho]
          exact Or.inr ⟨i, key, true, _, rfl⟩
        · rw [processLoop_cons_fail limit oracle cancel now total chunk rest i s s1
            (poisonKey key s1) key hc hg (by rw [ho]; rfl)]
          exact Or.inr ⟨i, key, false, _, rfl⟩
        · rw [processLoop_cons_fail limit oracle cancel now total chunk rest i s s1 s1 key hc hg
            (by rw [ho]; rfl)]
          exact Or.inr ⟨i, key, false, _, rfl⟩
      · rw [processLoop_exhausted_stop limit oracle cancel now total chunk rest i s s1 hc hg]
        exact Or.inl rfl
      · rw [processLoop_cons_indexErr limit oracle cancel now total chunk rest i s s1 hc hg]
        exact Or.inl rfl

theorem processLoop_delay_ok (limit : Nat) (oracle : Nat → String → SendOutcome)
    (cancel : Nat → Bool) (now : Int) (total : Nat) :
    ∀ (chunks : List (List Char)) (i : Nat) (s : LedgerState),
      successSleepOk (processLoop limit oracle cancel now total chunks i s).1 = true := by
  intro chunks
  induction chunks with
  | nil => intro i s; rfl
  | cons chunk rest ih =>
    intro i s
    cases hc : cancel i with
    | true =>
      rw [processLoop_cons_cancel limit oracle cancel now total chunk rest i s hc]
      rfl
    | false =>
      rcases hg : get_next_valid_api_key limit s with ⟨key, s1⟩ | s1 | s1
      · rcases ho : oracle i key with _ | _ | _
        · rw [processLoop_cons_success limit oracle cancel now total chunk rest i s s1 key hc hg ho]
          exact ih (i + 1) (recordUsage limit key chunk.length now s1)
        · rw [processLoop_cons_fail limit oracle cancel now total chunk rest i s s1
            (poisonKey key s1) key hc hg (by rw [ho]; rfl)]
          rcases processLoop_trace_shape limit oracle cancel now total rest (i + 1)
            (poisonKey key s1) with hsh | ⟨j, k2, ok, t, hsh⟩
          · rw [hsh]
            rfl
          · rw [hsh]
            have h2 := ih (i + 1) (poisonKey key s1)
            rw [hsh] at h2
            exact h2
        · rw [processLoop_cons_fail limit oracle cancel now total chunk rest i s s1 s1 key hc hg
            (by rw [ho]; rfl)]
          rcases processLoop_trace_shape limit oracle cancel now total rest (i + 1) s1 with
            hsh | ⟨j, k2, ok, t, hsh⟩
          · rw [hsh]
            rfl
          · rw [hsh]
            have h2 := ih (i + 1) s1
            rw [hsh] at h2
            exact h2
      · rw [processLoop_exhausted_stop limit oracle cancel now total chunk rest i s s1 hc hg]
        rfl
      · rw [processLoop_cons_indexErr limit oracle cancel now total chunk rest i s s1 hc hg]
        rfl

theorem processLoop_progress_ok (limit : Nat) (oracle : Nat → String → SendOutcome)
    (cancel : Nat → Bool) (now : Int) (total : Nat) :
    ∀ (chunks : List (List Char)) (i : Nat) (s : LedgerState),
      progressIndexOk total (processLoop limit oracle cancel now total chunks i s).1 = true := by
  intro chunks
  induction chunks with
  | nil => intro i s; rfl
  | cons chunk rest ih =>
    intro i s
    cases hc : cancel i with
    | true =>
      rw [processLoop_cons_cancel limit oracle cancel now total chunk rest i s hc]
      rfl
    | false =>
      rcases hg : get_next_valid_api_key limit s with ⟨key, s1⟩ | s1 | s1
      · rcases ho : oracle i key with _ | _ | _
        · rw [processLoop_cons_success limit oracle cancel now total chunk rest i s s1 key hc hg ho]
          show (decide (i = i) && decide (total = total) &&
            progressIndexOk total (processLoop limit oracle cancel now total rest (i + 1)
              (recordUsage limit key chunk.length now s1)).1) = true
          rw [ih (i + 1) (recordUsage limit key chunk.length now s1)]
          simp
        · rw [processLoop_cons_fail limit oracle cancel now total chunk rest i s s1
            (poisonKey key s1) key hc hg (by rw [ho]; rfl)]
          rcases processLoop_trace_shape limit oracle cancel now total rest (i + 1)
            (poisonKey key s1) with hsh | ⟨j, k2, ok, t, hsh⟩
          · rw [hsh]
            rfl
          · rw [hsh]
            have h2 := ih (i + 1) (poisonKey key s1)
            rw [hsh] at h2
            cases ok with
            | true => exact h2
            | false => exact h2
        · rw [processLoop_cons_fail limit oracle cancel now total chunk rest i s s1 s1 key hc hg
            (by rw [ho]; rfl)]
          rcases processLoop_trace_shape limit oracle cancel now total rest (i + 1) s1 with
            hsh | ⟨j, k2, ok, t, hsh⟩
          · rw [hsh]
            rfl
          · rw [hsh]
            have h2 := ih (i + 1) s1
            rw [hsh] at h2
            cases ok with
            | true => exact h2
            | false => exact h2
      · rw [processLoop_exhausted_stop limit oracle cancel now total chunk rest i s s1 hc hg]
        rfl
      · rw [processLoop_cons_indexErr limit oracle cancel now total chunk rest i s s1 hc hg]
        rfl

/-- A fresh one-key state for the C8 counterexample. -/
def c8State : LedgerState :=
  ⟨["K"], [], [], [], [], 0⟩

/-- Counterexample to C8 as stated: in a two-chunk run whose first dispatch
fails, the second attempt begins with no 3-second sleep after the first —
the `continue` on failure skips `time.sleep(3)`
(`attemptsDelayed` demands a sleep between consecutive attempts). -/
theorem inter_chunk_delay_cex :
    attemptsDelayed (processLoop 1000
      (fun i _ => if i = 1 then SendOutcome.otherFail else SendOutcome.success)
      (fun _ => false) 0 2 [['a', 'b'], ['c', 'd']] 1 c8State).1 false = false := by
  decide

/-- Claim C8, amended: the 3-second inter-chunk delay is applied after each
successful dispatch (right after the progress report); a failed attempt
proceeds to the next chunk immediately, with no sleep. -/
theorem inter_chunk_delay_spec (limit : Nat) (oracle : Nat → String → SendOutcome)
    (cancel : Nat → Bool) (now : Int) (text : List Char) (s : LedgerState) :
    successSleepOk (process_text limit oracle cancel now text s).1 = true := by
  show successSleepOk (Ev.progress 0 (chunk_text text 2500).length ::
    (processLoop limit oracle cancel now (chunk_text text 2500).length
      (chunk_text text 2500) 1 s).1) = true
  exact processLoop_delay_ok limit oracle cancel now (chunk_text text 2500).length
    (chunk_text text 2500) 1 s

/-- A fresh one-key state for the C9 counterexample. -/
def c9State : LedgerState :=
  ⟨["J"], [], [], [], [], 0⟩

/-- Counterexample to C9 as stated: when chunk 1 fails and chunk 2 succeeds,
the progress report carries 2 (the chunk index) while only 1 chunk has
completed successfully (`progressCountsSuccesses` checks the first component
against the running success count). -/
theorem progress_report_cex :
    progressCountsSuccesses (processLoop 1000
      (fun i _ => if i = 1 then SendOutcome.otherFail else SendOutcome.success)
      (fun _ => false) 0 2 [['a'], ['b']] 1 c9State).1 0 = false := by
  decide

/-- Claim C9, amended: after the initial `(0, total)` report, every progress
report is emitted immediately after a successful dispatch and carries that
chunk's 1-based index as its first component and the total chunk count as its
second. -/
theorem progress_report_spec (limit : Nat) (oracle : Nat → String → SendOutcome)
    (cancel : Nat → Bool) (now : Int) (text : List Char) (s : LedgerState) :
    (process_text limit oracle cancel now text s).1.head? =
      some (Ev.progress 0 (chunk_text text 2500).length) ∧
    progressIndexOk (chunk_text text 2500).length
      ((process_text limit oracle cancel now text s).1.tail) = true := by
  constructor
  · rfl
  · show progressIndexOk (chunk_text text 2500).length
      (processLoop limit oracle cancel now (chunk_text text 2500).length
        (chunk_text text 2500) 1 s).1 = true
    exact processLoop_progress_ok limit oracle cancel now (chunk_text text 2500).length
      (chunk_text text 2500) 1 s

/-! ### C10: poisoned-but-never-used credentials survive every reset -/

/-- Claim C10: poisoning never sets `first_used`; hence a credential that was
poisoned before any successful use (no `first_used` entry, flagged invalid)
is left by `reset_expired_keys` with its counters unchanged, still no
`first_used` entry and still invalid, for every `now` and `window` — and an
invalid credential is never handed out by the rotator, so it is never
retried. -/
theorem poisoned_key_never_reset (limit : Nat) (now window : Int) (s : LedgerState)
    (k : String) (hfu : lookupKey s.firstUsed k = none) (hinv : k ∈ s.invalidKeys) :
    (∀ (key : String) (s2 : LedgerState), (poisonKey key s2).firstUsed = s2.firstUsed) ∧
    lookupD (reset_expired_keys limit now window s).keyUsage k 0 = lookupD s.keyUsage k 0 ∧
    lookupD (reset_expired_keys limit now window s).charUsage k 0 = lookupD s.charUsage k 0 ∧
    lookupKey (reset_expired_keys limit now window s).firstUsed k = none ∧
    k ∈ (reset_expired_keys limit now window s).invalidKeys ∧
    (∀ (lim2 : Nat) (s3 s4 : LedgerState) (key : String), key ∈ s3.invalidKeys →
      get_next_valid_api_key lim2 s3 ≠ .found key s4) := by
  have hno : ∀ dt, (k, dt) ∈ s.firstUsed → ¬ window ≤ now - dt := by
    intro dt hmem _
    have hsome := lookupKey_isSome_of_mem_keys s.firstUsed k
      (List.mem_map.mpr ⟨(k, dt), hmem, rfl⟩)
    rw [hfu] at hsome
    simp at hsome
  have hu := resetLoop_untouched now window k s.firstUsed s hno
  refine ⟨fun key s2 => rfl, ?_, ?_, ?_, ?_, ?_⟩
  · show lookupD (resetLoop now window s.firstUsed s).keyUsage k 0 = _
    unfold lookupD
    rw [hu.1]
  · show lookupD (resetLoop now window s.firstUsed s).charUsage k 0 = _
    unfold lookupD
    rw [hu.2.1]
  · show lookupKey (resetLoop now window s.firstUsed s).firstUsed k = none
    rw [hu.2.2.1]
    exact hfu
  · show k ∈ repairLoop limit (resetLoop now window s.firstUsed s).charUsage
      (resetLoop now window s.firstUsed s).invalidKeys
    rw [mem_repairLoop]
    exact Or.inl (hu.2.2.2.mpr hinv)
  · intro lim2 s3 s4 key hmem heq
    exact (nextKeyAux_found_spec lim2 s3.apiKeys.length s3 key s4 heq).1 hmem

/-- A poisoned-before-use state for the C10 witness: "p" invalid with the
sentinel counters and no `first_used` entry. -/
def c10State : LedgerState :=
  ⟨["p"], [("p", 4)], [("p", 4)], [], ["p"], 0⟩

/-- Witness for C10 at `c10State`: the poisoned key "p" is untouched by
`reset_expired_keys` and never handed out. -/
theorem poisoned_key_never_reset_witness :
    (poisonKey "p" c10State).firstUsed = c10State.firstUsed ∧
    lookupD (reset_expired_keys 10 1000 5 c10State).keyUsage "p" 0 =
      lookupD c10State.keyUsage "p" 0 ∧
    lookupD (reset_expired_keys 10 1000 5 c10State).charUsage "p" 0 =
      lookupD c10State.charUsage "p" 0 ∧
    lookupKey (reset_expired_keys 10 1000 5 c10State).firstUsed "p" = none ∧
    "p" ∈ (reset_expired_keys 10 1000 5 c10State).invalidKeys ∧
    get_next_valid_api_key 10 c10State ≠ .found "p" c10State := by
  have h := poisoned_key_never_reset 10 1000 5 c10State "p" (by decide) (by decide)
  exact ⟨h.1 "p" c10State, h.2.1, h.2.2.1, h.2.2.2.1, h.2.2.2.2.1,
    h.2.2.2.2.2 10 c10State c10State "p" (by decide)⟩
